import Mathlib

/-!
Verification of the bvh-toolbox conversion core against its specification.

The Python sources under `src/convert/` are shallowly embedded below:

* `csv2bvh.py` — CSV→BVH conversion: hierarchy parsing/validation
  (`get_hierarchy_data`, `_update_children`, `hierarchy_sanity_check`),
  depth computation (`_get_joint_depth`), the hierarchy text composer
  (`_get_joint_string`, `_close_scopes`, `_get_hierarchy_string`),
  frame time (`_get_frame_time`), and the column-name decoding helpers
  (`df_to_joints`, `_df_to_channels`) plus the `csv2bvh_string` pipeline.
* `bvh2csv.py` / `bvh2csv_dir/write_joint_positions.py` — the recursive
  and the stack-based world-position exporters, and the hierarchy-table
  writer with its fixed 20-character numpy string dtype.

Modelling conventions: numpy float64 values are modelled as `ℚ`;
`%10.5f` formatting is modelled as rounding to 5 decimal places
(the field width only pads, it never truncates digits); numpy float
division by zero returns a non-finite value (±inf or nan), modelled as
`Option ℚ` with `none` for the non-finite outcomes; Python exceptions
are modelled with `Except`; Python dicts are association lists in
insertion order with the usual update-in-place-keeps-position semantics.
-/

namespace BvhToolbox

/-- Python exception outcomes relevant to the embedded code. -/
inductive PyErr where
  | indexError
  | valueError (msg : String)
  | exception (msg : String)
deriving DecidableEq, Repr

instance {ε α : Type} [DecidableEq ε] [DecidableEq α] : DecidableEq (Except ε α) := fun a b =>
  match a, b with
  | .ok x, .ok y => if h : x = y then .isTrue (by rw [h]) else .isFalse (by simp [h])
  | .error e, .error f => if h : e = f then .isTrue (by rw [h]) else .isFalse (by simp [h])
  | .ok _, .error _ => .isFalse (by simp)
  | .error _, .ok _ => .isFalse (by simp)

/-- Result of a numpy floating-point computation: `some q` for a finite
value, `none` for a non-finite one (inf, -inf or nan). -/
abbrev NpF := Option ℚ

/-- Check whether an `Except` value is an error (an exception was raised). -/
def isErr {ε α : Type} : Except ε α → Bool
  | .error _ => true
  | .ok _ => false

/-- A 3-component float vector (an offset or a translation). -/
structure V3 where
  x : ℚ
  y : ℚ
  z : ℚ
deriving DecidableEq, Repr

def V3.zero : V3 := ⟨0, 0, 0⟩

/-- Componentwise scaling of a vector, `v * scale` in numpy. -/
def V3.smul (s : ℚ) (v : V3) : V3 := ⟨s * v.x, s * v.y, s * v.z⟩

def V3.add (a b : V3) : V3 := ⟨a.x + b.x, a.y + b.y, a.z + b.z⟩

/-- A 3×3 float matrix (the rotation block of a 4×4 affine). -/
structure M3 where
  a00 : ℚ
  a01 : ℚ
  a02 : ℚ
  a10 : ℚ
  a11 : ℚ
  a12 : ℚ
  a20 : ℚ
  a21 : ℚ
  a22 : ℚ
deriving DecidableEq, Repr

def M3.id : M3 := ⟨1, 0, 0, 0, 1, 0, 0, 0, 1⟩

def M3.mul (a b : M3) : M3 :=
  ⟨a.a00 * b.a00 + a.a01 * b.a10 + a.a02 * b.a20,
   a.a00 * b.a01 + a.a01 * b.a11 + a.a02 * b.a21,
   a.a00 * b.a02 + a.a01 * b.a12 + a.a02 * b.a22,
   a.a10 * b.a00 + a.a11 * b.a10 + a.a12 * b.a20,
   a.a10 * b.a01 + a.a11 * b.a11 + a.a12 * b.a21,
   a.a10 * b.a02 + a.a11 * b.a12 + a.a12 * b.a22,
   a.a20 * b.a00 + a.a21 * b.a10 + a.a22 * b.a20,
   a.a20 * b.a01 + a.a21 * b.a11 + a.a22 * b.a21,
   a.a20 * b.a02 + a.a21 * b.a12 + a.a22 * b.a22⟩

def M3.mulV (m : M3) (v : V3) : V3 :=
  ⟨m.a00 * v.x + m.a01 * v.y + m.a02 * v.z,
   m.a10 * v.x + m.a11 * v.y + m.a12 * v.z,
   m.a20 * v.x + m.a21 * v.y + m.a22 * v.z⟩

/-- A 4×4 affine transform, stored as its rotation block `R` and its
translation column `t` (the last row is constantly `0 0 0 1`, so the
block form carries exactly the information of the numpy 4×4 array). -/
structure Aff where
  R : M3
  t : V3
deriving DecidableEq, Repr

def Aff.id : Aff := ⟨M3.id, V3.zero⟩

/-- Product of two 4×4 affine matrices (`np.matmul`) in block form:
the rotation blocks multiply and the left factor acts on the right
factor's translation column. -/
def Aff.mul (a b : Aff) : Aff := ⟨M3.mul a.R b.R, V3.add (M3.mulV a.R b.t) a.t⟩

/-- Formatting a float with `%10.5f`, modelled as rounding to 5 decimal
places (round half up; the width-10 padding adds spaces only and the
parsers strip them again, so it is not modelled). -/
def round5 (q : ℚ) : ℚ := (⌊q * 100000 + 1 / 2⌋ : ℚ) / 100000

def V3.round5 (v : V3) : V3 := ⟨BvhToolbox.round5 v.x, BvhToolbox.round5 v.y, BvhToolbox.round5 v.z⟩

/-! ## Python string primitives

Python compares strings lexicographically by Unicode code point; the
builtin Lean `String` order is the same order but its decision procedure
does not reduce in the kernel, so the comparison is re-implemented
structurally on the character lists. -/

/-- Code-point-lexicographic strict comparison of character lists,
Python's `<` on strings. -/
def strLtL : List Char → List Char → Bool
  | [], [] => false
  | [], _ :: _ => true
  | _ :: _, [] => false
  | a :: as, b :: bs =>
      if a.toNat < b.toNat then true
      else if b.toNat < a.toNat then false
      else strLtL as bs

/-- Python's `a <= b` on strings: not `b < a` in the total code-point order. -/
def pyLe (a b : String) : Prop := strLtL b.data a.data = false

instance : DecidableRel pyLe := fun a b => by unfold pyLe; infer_instance

/-- Python's `sorted` on a list of strings.  `sorted` is a comparison
sort for the code-point order; since equal keys are identical strings
here, its output is the unique sorted permutation, which insertion sort
computes as well. -/
def pySorted (l : List String) : List String := List.insertionSort pyLe l

theorem strLtL_cons (x y : Char) (xs ys : List Char) :
    strLtL (x :: xs) (y :: ys) =
      (if x.toNat < y.toNat then true
       else if y.toNat < x.toNat then false
       else strLtL xs ys) := rfl

theorem strLtL_asymm {a b : List Char} (h : strLtL a b = true) : strLtL b a = false := by
  induction a generalizing b with
  | nil =>
      cases b with
      | nil => simp [strLtL] at h
      | cons y ys => simp [strLtL]
  | cons x xs ih =>
      cases b with
      | nil => simp [strLtL] at h
      | cons y ys =>
          rw [strLtL_cons] at h
          rw [strLtL_cons]
          rcases Nat.lt_trichotomy x.toNat y.toNat with h1 | h1 | h1
          · rw [if_neg (by omega), if_pos h1]
          · rw [if_neg (by omega), if_neg (by omega)] at h
            rw [if_neg (by omega), if_neg (by omega)]
            exact ih h
          · rw [if_neg (by omega), if_pos h1] at h
            simp at h

theorem strLtL_trans {a b c : List Char} (h1 : strLtL a b = true) (h2 : strLtL b c = true) :
    strLtL a c = true := by
  induction a generalizing b c with
  | nil =>
      cases b with
      | nil => simp [strLtL] at h1
      | cons y ys =>
          cases c with
          | nil => simp [strLtL] at h2
          | cons z zs => simp [strLtL]
  | cons x xs ih =>
      cases b with
      | nil => simp [strLtL] at h1
      | cons y ys =>
          cases c with
          | nil => simp [strLtL] at h2
          | cons z zs =>
              rw [strLtL_cons] at h1 h2
              rw [strLtL_cons]
              rcases Nat.lt_trichotomy x.toNat y.toNat with hxy | hxy | hxy <;>
                rcases Nat.lt_trichotomy y.toNat z.toNat with hyz | hyz | hyz
              · rw [if_pos (by omega)]
              · rw [if_pos (by omega)]
              · rw [if_neg (by omega), if_pos hyz] at h2
                simp at h2
              · rw [if_pos (by omega)]
              · rw [if_neg (by omega), if_neg (by omega)] at h1 h2
                rw [if_neg (by omega), if_neg (by omega)]
                exact ih h1 h2
              · rw [if_neg (by omega), if_pos hyz] at h2
                simp at h2
              · rw [if_neg (by omega), if_pos hxy] at h1
                simp at h1
              · rw [if_neg (by omega), if_pos hxy] at h1
                simp at h1
              · rw [if_neg (by omega), if_pos hxy] at h1
                simp at h1

theorem strLtL_conn {a b : List Char} (h1 : strLtL a b = false) (h2 : strLtL b a = false) :
    a = b := by
  induction a generalizing b with
  | nil =>
      cases b with
      | nil => rfl
      | cons y ys => simp [strLtL] at h1
  | cons x xs ih =>
      cases b with
      | nil => simp [strLtL] at h2
      | cons y ys =>
          rw [strLtL_cons] at h1 h2
          rcases Nat.lt_trichotomy x.toNat y.toNat with hxy | hxy | hxy
          · rw [if_pos (by omega)] at h1
            simp at h1
          · rw [if_neg (by omega), if_neg (by omega)] at h1 h2
            have hc : x = y := Char.eq_of_val_eq (UInt32.ext hxy)
            rw [hc, ih h1 h2]
          · rw [if_pos (by omega)] at h2
            simp at h2

theorem string_eq_of_data {s t : String} (h : s.data = t.data) : s = t := by
  cases s; cases t; exact congrArg String.mk h

instance : IsTotal String pyLe :=
  ⟨by
    intro a b
    cases h : strLtL b.data a.data with
    | false => exact Or.inl h
    | true => exact Or.inr (strLtL_asymm h)⟩

instance : IsTrans String pyLe :=
  ⟨by
    intro a b c h1 h2
    unfold pyLe at h1 h2 ⊢
    cases h3 : strLtL c.data a.data with
    | false => rfl
    | true =>
        exfalso
        cases h4 : strLtL b.data c.data with
        | true =>
            have h5 : strLtL b.data a.data = true := strLtL_trans h4 h3
            rw [h1] at h5
            exact absurd h5 (by simp)
        | false =>
            have h6 : b.data = c.data := strLtL_conn h4 h2
            rw [← h6] at h3
            rw [h1] at h3
            exact absurd h3 (by simp)⟩

instance : IsAntisymm String pyLe :=
  ⟨fun a b h1 h2 => string_eq_of_data (strLtL_conn h2 h1)⟩

/-- Python's `x.split('.')[0]`: the prefix of the string before its
first `.` (the whole string when there is no dot). -/
def colJoint (c : String) : String := String.mk (c.data.takeWhile (fun ch => ch ≠ '.'))

/-- Python's `x.split('.')[1]`: the segment between the first and the
second dot; `none` when there is no dot at all (`IndexError`). -/
def colAxis (c : String) : Option String :=
  match c.data.dropWhile (fun ch => ch ≠ '.') with
  | [] => none
  | _ :: tail => some (String.mk (tail.takeWhile (fun ch => ch ≠ '.')))

/-- Python's `ch[:1].lower()`: the first character, lowercased ('' for
the empty string). -/
def firstLower (ch : String) : String := String.mk ((ch.data.take 1).map Char.toLower)

/-- Python's `ch[1:] == 'rotation'` test on a channel name. -/
def isRotCh (ch : String) : Bool := ch.data.drop 1 = "rotation".data

/-- Python's `s.upper()`. -/
def pyUpper (s : String) : String := String.mk (s.data.map Char.toUpper)

/-! ## `csv2bvh.py`: hierarchy data, validation, and text composition -/

/-- The per-joint dictionary value built by `get_hierarchy_data`:
`{'parent': str, 'offset': array, 'children': list}`.  The `channels`
key is added later by `_update_channels` and is only ever read for
joints with children; it is modelled as an always-present field that
stays `[]` until `_update_channels` assigns it. -/
structure NodeProps where
  parent : String
  offset : V3
  children : List String
  channels : List String
deriving DecidableEq, Repr

/-- The `joint_info` dictionary: an association list in insertion
order (Python dicts preserve insertion order). -/
abbrev Nodes := List (String × NodeProps)

/-- Dictionary lookup, `nodes[k]` (`none` models a `KeyError`). -/
def lookupN (nodes : Nodes) (k : String) : Option NodeProps :=
  (nodes.find? (fun e => e.1 = k)).map (fun e => e.2)

/-- Key membership, `k in nodes.keys()`. -/
def hasKey (nodes : Nodes) (k : String) : Bool := nodes.any (fun e => e.1 = k)

/-- Building a dict from a sequence of key/value pairs: a repeated key
overwrites the stored value but keeps the original insertion position. -/
def dictInsert (m : Nodes) (k : String) (v : NodeProps) : Nodes :=
  if hasKey m k then m.map (fun e => if e.1 = k then (k, v) else e) else m ++ [(k, v)]

def dictOfRows (rows : List (String × NodeProps)) : Nodes :=
  rows.foldl (fun m e => dictInsert m e.1 e.2) []

/-- One step of `_update_children`: `nodes[parent]['children'].append(node)`. -/
def appendChild (nodes : Nodes) (parent child : String) : Nodes :=
  nodes.map (fun e => if e.1 = parent then (e.1, { e.2 with children := e.2.children ++ [child] }) else e)

/-- `_update_children(nodes)`: walk the joints in insertion order and
append each to its parent's `children` list; a nonempty parent that is
not a key raises `ValueError`. -/
def updateChildrenF (nodes : Nodes) : Except PyErr Nodes :=
  nodes.foldlM
    (fun acc e =>
      match lookupN acc e.2.parent with
      | some _ => .ok (appendChild acc e.2.parent e.1)
      | none =>
          if e.2.parent = "" then .ok acc
          else .error (.valueError ("ERROR: Parent of " ++ e.1 ++ " cannot be found in the hierarchy definition!")))
    nodes

/-- The loop of `hierarchy_sanity_check`, threading the `found_root`
flag.  Each iteration performs, in source order: the multiple-root
check, the self-parent check, the direct-cycle check and the
unresolved-parent check; after the loop the no-root check runs. -/
def sanityAux (nodes : Nodes) : Bool → List (String × NodeProps) → Except PyErr Bool
  | foundRoot, [] =>
      if foundRoot then .ok true
      else .error (.valueError "ERROR: No root joint found in the hierarchy definition!")
  | foundRoot, (n, p) :: rest =>
      if p.parent = "" ∧ foundRoot then
        .error (.valueError "ERROR: Hierarchy can't have more than 1 root!")
      else if n = p.parent then
        .error (.valueError ("ERROR: Joint " ++ n ++ " cannot be parent of itself!"))
      else if p.parent ∈ p.children then
        .error (.valueError ("Impossible cyclic relation detected for joints " ++ n ++ " and " ++ p.parent ++ "!"))
      else if p.parent ≠ "" ∧ ¬ hasKey nodes p.parent then
        .error (.valueError ("ERROR: Parent of joint " ++ n ++ " cannot be found in the hierarchy definition!"))
      else sanityAux nodes (if p.parent = "" then true else foundRoot) rest

/-- `hierarchy_sanity_check(nodes)`: returns `True` when no error occurs. -/
def hierarchy_sanity_check (nodes : Nodes) : Except PyErr Bool :=
  sanityAux nodes false nodes

/-- `get_root_name(nodes)`: the first joint with an empty parent. -/
def get_root_name (nodes : Nodes) : Option String :=
  (nodes.find? (fun e => e.2.parent = "")).map (fun e => e.1)

/-- The parent-chain walk of `_get_joint_depth`, with explicit fuel:
the Python loop `while parent: depth += 1; parent = nodes[parent]['parent']`
terminates exactly when the chain reaches the root, which for a sane
hierarchy happens within `nodes.length` steps; on a missing key Python
raises, modelled by stopping the count. -/
def depthAux (nodes : Nodes) : Nat → String → Nat
  | 0, _ => 0
  | fuel + 1, j =>
      match lookupN nodes j with
      | none => 0
      | some p => if p.parent = "" then 0 else depthAux nodes fuel p.parent + 1

/-- `_get_joint_depth(nodes, joint)`. -/
def _get_joint_depth (nodes : Nodes) (joint : String) : Nat :=
  depthAux nodes (nodes.length + 1) joint

/-- The two-spaces-per-level indentation `'  ' * depth`. -/
def sp (d : Nat) : String := String.mk (List.replicate (2 * d) ' ')

/-- An opening brace (the character `0x7b`). -/
def obrace : Char := Char.ofNat 123

/-- A closing brace (the character `0x7d`). -/
def cbrace : Char := Char.ofNat 125

def obStr : String := String.mk [obrace]

def cbStr : String := String.mk [cbrace]

/-- Rendering a float offset component with `str` (`astype(str)`),
whose output never contains spaces, newlines or braces; the exact
digits are irrelevant to every property proved below. -/
def ratStr (q : ℚ) : String := toString q

/-- The space-joined `OFFSET` payload `' '.join(offset.astype(str))`. -/
def offsetStr (v : V3) : String :=
  String.intercalate " " [ratStr v.x, ratStr v.y, ratStr v.z]

/-- The payload of the `CHANNELS` line:
`'CHANNELS {len} {names}'` with the names space-joined. -/
def channelsText (p : NodeProps) : String :=
  "CHANNELS " ++ toString p.channels.length ++ " " ++ String.intercalate " " p.channels

/-- `_get_joint_string(nodes, joint)` as its list of output lines (the
Python function returns them newline-joined; every emitted line ends
with `\n`, so the line list carries the same information).  Roots print
`ROOT`, childless joints `End Site` (and close their own scope), other
joints `JOINT` plus a `CHANNELS` line. -/
def jointLines (d : Nat) (name : String) (p : NodeProps) : List String :=
  let hdr :=
    if p.parent = "" then sp d ++ "ROOT " ++ name
    else if p.children = [] then sp d ++ "End Site"
    else sp d ++ "JOINT " ++ name
  let core := [hdr, sp d ++ obStr, sp (d + 1) ++ "OFFSET " ++ offsetStr p.offset]
  if p.children = [] then core ++ [sp d ++ cbStr]
  else core ++ [sp (d + 1) ++ channelsText p]

/-- Python's `str.count('  ')`: the number of non-overlapping
occurrences of two consecutive spaces, scanning left to right. -/
def countDS : List Char → Nat
  | [] => 0
  | [_] => 0
  | a :: b :: rest2 =>
      if a = ' ' ∧ b = ' ' then countDS rest2 + 1 else countDS (b :: rest2)

/-- The last line of the accumulated hierarchy string.  Python extracts
it as `s[s[:-1].rfind('\n'):]` — everything from the newline preceding
the final (newline-terminated) line; in the line-list model this is the
last list entry.  (For the initial one-line string `'HIERARCHY\n'`,
`rfind` returns -1 and Python counts in `s[-1:] = '\n'`, which contains
no double space, the same count as for the full line `HIERARCHY`.) -/
def lastLine (lines : List String) : String := lines.getLastD ""

/-- The closing-brace lines appended by `_close_scopes` when the
last-line indentation level is `lastd` and the target depth is
`target`: `lastd - target` braces at indentations `lastd-1` down to
`target` (none when the difference is not positive). -/
def closeBraceLines (lastd target : Nat) : List String :=
  (List.range (lastd - target)).map (fun k => sp (lastd - k - 1) ++ cbStr)

/-- `_close_scopes(hierarchy_string, target_depth)`. -/
def _close_scopes (lines : List String) (target : Nat) : List String :=
  lines ++ closeBraceLines (countDS (lastLine lines).data) target

/-- One iteration of the composer loop: close scopes down to the
joint's depth, then emit the joint's block. -/
def hierStep (nodes : Nodes) (acc : List String) (e : String × NodeProps) : List String :=
  _close_scopes acc (_get_joint_depth nodes e.1) ++
    jointLines (_get_joint_depth nodes e.1) e.1 e.2

/-- The composer state after processing a prefix of the joint map. -/
def hierAccum (nodes : Nodes) (pre : List (String × NodeProps)) : List String :=
  pre.foldl (hierStep nodes) ["HIERARCHY"]

/-- `_get_hierarchy_string(nodes)` as its list of lines. -/
def _get_hierarchy_string (nodes : Nodes) : List String :=
  _close_scopes (hierAccum nodes nodes) 0

/-- The number of closing braces `_close_scopes` emits immediately
before the block of joint number `i` (0-based) of the map. -/
def closeCountBefore (nodes : Nodes) (i : Nat) : Nat :=
  match nodes.get? i with
  | none => 0
  | some e =>
      (closeBraceLines (countDS (lastLine (hierAccum nodes (nodes.take i))).data)
        (_get_joint_depth nodes e.1)).length

/-! ## `csv2bvh.py`: frame time and table decoding -/

/-- `_get_frame_time(time_steps)` for a 1-D array (a list models a 1-D
array, so the `len(shape) != 1` ValueError branch cannot fire).
`time_steps[-1]` raises `IndexError` on an empty array; for a single
sample the denominator `len - 1` is zero and numpy float division
yields a non-finite value (inf, -inf or nan) instead of raising. -/
def _get_frame_time (time_steps : List ℚ) : Except PyErr NpF :=
  match time_steps with
  | [] => .error .indexError
  | t :: rest =>
      let n := (t :: rest).length
      if n - 1 = 0 then .ok none
      else .ok (some ((t :: rest).getLastD 0 / ((n - 1 : ℕ) : ℚ)))

/-- `df_to_joints(df)`: the sorted set of joint names taken from the
degree-of-freedom column names, skipping `time`. -/
def df_to_joints (df : List String) : List String :=
  pySorted ((df.filter (fun x => x ≠ "time")).map colJoint).dedup

/-- `_df_to_channels(df)`: map each joint (from `df_to_joints`) to its
rotation-channel tokens `axis.upper() + 'rotation'`, in column order;
a column without a dot raises (`IndexError` → `ValueError`). -/
def _df_to_channels (df : List String) : Except PyErr (List (String × List String)) :=
  let dof := df.erase "time"
  (df_to_joints df).mapM
    (fun j =>
      match (dof.filter (fun ch => colJoint ch = j)).mapM
          (fun ch => (colAxis ch).map (fun a => pyUpper a ++ "rotation")) with
      | some chs => .ok (j, chs)
      | none => .error (.valueError "ERROR: degrees of freedom (columns) must be in the form of: joint.axis, e.g. Hips.x"))

/-- `_update_channels(nodes, root_pos_channels, rot_channels)`: skip
end sites (no children); the root gets position plus rotation channels,
other joints their rotation channels.  (`rot_channels[node]` is only
looked up after `csv2bvh_string` has verified coverage, so the `getD`
default is never reached in the modelled pipeline.) -/
def _update_channels (nodes : Nodes) (rootPosChannels : List String)
    (rotChannels : List (String × List String)) : Nodes :=
  nodes.map
    (fun e =>
      if e.2.children = [] then e
      else if e.2.parent = "" then
        (e.1, { e.2 with channels := rootPosChannels ++ (rotChannels.lookup e.1).getD [] })
      else (e.1, { e.2 with channels := (rotChannels.lookup e.1).getD [] }))

/-- A row of the hierarchy CSV table as parsed by `np.recfromcsv`:
`joint, parent, offset.x, offset.y, offset.z`. -/
structure HRow where
  joint : String
  parent : String
  ox : ℚ
  oy : ℚ
  oz : ℚ
deriving DecidableEq, Repr

/-- `get_hierarchy_data(hierarchy_file, scale)`: scale the offsets,
build the joint dictionary in row order, fill in the children and run
the sanity check. -/
def get_hierarchy_data (rows : List HRow) (scale : ℚ) : Except PyErr Nodes := do
  let base := dictOfRows (rows.map (fun r =>
    (r.joint, ⟨r.parent, V3.smul scale ⟨r.ox, r.oy, r.oz⟩, [], []⟩)))
  let ji ← updateChildrenF base
  let _ ← hierarchy_sanity_check ji
  pure ji

/-- The list of non-leaf joints of `csv2bvh_string`:
`sorted([joint for joint in joint_info if joint_info[joint]['children']])`. -/
def nonLeafSorted (nodes : Nodes) : List String :=
  pySorted ((nodes.filter (fun e => e.2.children ≠ [])).map (fun e => e.1))

/-- The rotation-coverage check of `csv2bvh_string`: raise unless the
sorted joint names of the rotation columns coincide, as a list, with
the sorted non-leaf joint names of the hierarchy. -/
def rotationCoverageCheck (jointInfo : Nodes) (rotCols : List String) : Except PyErr Unit :=
  if df_to_joints rotCols ≠ nonLeafSorted jointInfo then
    .error (.exception "ERROR: No rotation data found for some joints.")
  else .ok ()

/-- The outcome of the CSV→BVH decoding pipeline that the round-trip
property compares: the reconstructed joint dictionary (with channels),
the frame count and the frame time. -/
structure ImportResult where
  jointInfo : Nodes
  nFrames : Nat
  frameTime : NpF
deriving DecidableEq, Repr

/-- `csv2bvh_string(hierarchy, position, rotation, scale)` up to (and
including) everything the round-trip property observes — the hierarchy
reconstruction with channels, the frame count and the frame time — with
the CSV files presented as parsed tables (rows of rationals under the
header line).  The final string assembly of the already-validated data
is not needed by any claim.  Mirrors the source statement for
statement: `get_hierarchy_data` (with its default `scale=1.0`; the
`scale` argument of `csv2bvh_string` multiplies only the position
data), root detection, root position columns and channels, the
frame-count check, the rotation-coverage check, `_df_to_channels`,
`_update_channels` and `_get_frame_time` on the rotation time column. -/
def csv2bvhImport (hierRows : List HRow) (posCols : List String) (posData : List (List ℚ))
    (rotCols : List String) (rotData : List (List ℚ)) (scale : ℚ) :
    Except PyErr ImportResult := do
  let jointInfo ← get_hierarchy_data hierRows 1
  let rootName := get_root_name jointInfo
  let _positions := posData.map (fun row => row.map (fun v => v * scale))
  let rootPosDf := posCols.filter (fun c => some (colJoint c) = rootName)
  if rootPosDf = [] then
    throw (.exception "ERROR: No position data found for the root in the position file.")
  let rootPosChannels ←
    match rootPosDf.mapM (fun c => (colAxis c).map (fun a => pyUpper a ++ "position")) with
    | some l => pure l
    | none => throw .indexError
  let nFrames := posData.length
  if rotData.length ≠ nFrames then
    throw (.exception "ERROR: Mismatch of frame count between positions and rotations!")
  let _ ← rotationCoverageCheck jointInfo rotCols
  let rotChannels ← _df_to_channels rotCols
  let jointInfo2 := _update_channels jointInfo rootPosChannels rotChannels
  let timeIdx := List.indexOf "time" rotCols
  let frameTime ← _get_frame_time (rotData.map (fun row => row.getD timeIdx 0))
  pure ⟨jointInfo2, nFrames, frameTime⟩

/-! ## `bvh2csv.py`: world-position export

The exporters walk the parsed BVH tree (`BvhTree`, a collaborator that
lives outside `src/convert/`).  The tree is modelled directly: a node
carries the name, the End-Site flag (`joint.value[0] == 'End'`), the
`OFFSET` values, the per-frame data that `get_affines` produces for it,
and the child nodes in file order. -/

/-- A node of the parsed BVH tree.  `rots`/`posVals` are the per-frame
rotation matrices and position-channel values that determine the
node's local affines (see `getAffines`); they are unused for End
Sites. -/
inductive JTree where
  | mk (name : String) (isEnd : Bool) (offset : V3) (rots : List M3)
      (posVals : List V3) (children : List JTree)

def JTree.name : JTree → String
  | .mk n _ _ _ _ _ => n

def JTree.isEnd : JTree → Bool
  | .mk _ e _ _ _ _ => e

def JTree.offset : JTree → V3
  | .mk _ _ o _ _ _ => o

def JTree.rots : JTree → List M3
  | .mk _ _ _ r _ _ => r

def JTree.posVals : JTree → List V3
  | .mk _ _ _ _ p _ => p

def JTree.children : JTree → List JTree
  | .mk _ _ _ _ _ c => c

/-- Modelled from the spec: `get_affines` (defined in the package root,
which is not part of the conversion sources) returns one 4×4 affine per
frame whose rotation block is the Euler composition of the joint's
rotation channels for that frame and whose translation column holds the
joint's position-channel values (zero for a joint without position
channels).  The trigonometric construction of the rotation matrix from
the channel angles is taken as data (`rots`), since no claim depends on
it; the translation is the position-channel data (`posVals`). -/
def getAffines (rots : List M3) (posVals : List V3) : List Aff :=
  List.zipWith (fun r t => ⟨r, t⟩) rots posVals

/-- The per-joint body shared verbatim by the recursive exporter
(`bvh2csv.py`) and the stack-based exporter (`bvh2csv_dir/`): build the
per-frame transforms (`np.tile` of the identity affine for an End Site,
`get_affines` otherwise), then for a non-root joint overwrite the
translation column with the `OFFSET` and left-multiply the parent's
stored transforms, and finally, when `scale != 1.0`, multiply the
translation column by the scale in place.  `parentWT = none` models the
root (`joint != root` fails only there). -/
def nodeBase (nframes : Nat) (j : JTree) : List Aff :=
  if j.isEnd then List.replicate nframes Aff.id else getAffines j.rots j.posVals

def nodeCompose (parentWT : Option (List Aff)) (off : V3) (base : List Aff) : List Aff :=
  match parentWT with
  | none => base
  | some pw => List.zipWith (fun p b => Aff.mul p { b with t := off }) pw base

def nodeScale (scale : ℚ) (wt : List Aff) : List Aff :=
  if scale = 1 then wt else wt.map (fun a => { a with t := V3.smul scale a.t })

def nodeWT (scale : ℚ) (nframes : Nat) (parentWT : Option (List Aff)) (j : JTree) : List Aff :=
  nodeScale scale (nodeCompose parentWT j.offset (nodeBase nframes j))

/-- The entry the exporter appends for one visited joint: the header
contribution `name.x/.y/.z` is determined by the name, and the data
block is the translation column `world_transforms[:, :3, 3]` of every
frame. -/
def visitEntry (j : JTree) (wt : List Aff) : String × List V3 := (j.name, wt.map (fun a => a.t))

mutual

/-- Size of a tree (for termination measures). -/
def sizeT : JTree → Nat
  | .mk _ _ _ _ _ cs => 1 + sizeL cs

/-- Size of a list of trees. -/
def sizeL : List JTree → Nat
  | [] => 0
  | c :: cs => sizeT c + sizeL cs

end

theorem sizeT_pos (j : JTree) : 0 < sizeT j := by
  cases j with
  | mk n e o r p cs => simp [sizeT]

mutual

/-- The recursive `get_world_positions` walk of `bvh2csv.py`
`write_joint_positions`: emit the joint itself, then (when requested)
the first End-Site child, then the `JOINT` children in order.  The
output is the list of per-joint columns in emission order. -/
def goRec (scale : ℚ) (nframes : Nat) (endSites : Bool) (parentWT : Option (List Aff))
    (j : JTree) : List (String × List V3) :=
  let wt := nodeWT scale nframes parentWT j
  visitEntry j wt ::
    ((if endSites then goRecEnd scale nframes endSites (some wt) j.children else []) ++
      goRecJoints scale nframes endSites (some wt) j.children)
termination_by 2 * sizeT j
decreasing_by
  all_goals cases j with
    | mk n e o r p cs => simp only [JTree.children, sizeT]; omega

/-- `list(joint.filter('End'))` followed by a recursive call on
`end[0]` when nonempty: visit the first End-Site child only. -/
def goRecEnd (scale : ℚ) (nframes : Nat) (endSites : Bool) (pw : Option (List Aff)) :
    List JTree → List (String × List V3)
  | [] => []
  | c :: cs =>
      if c.isEnd then goRec scale nframes endSites pw c
      else goRecEnd scale nframes endSites pw cs
termination_by l => 2 * sizeL l + 1
decreasing_by
  all_goals simp only [sizeL]
  · have := sizeT_pos c; omega
  · have := sizeT_pos c; omega

/-- `for child in joint.filter('JOINT')`: recurse on every non-End
child, in order. -/
def goRecJoints (scale : ℚ) (nframes : Nat) (endSites : Bool) (pw : Option (List Aff)) :
    List JTree → List (String × List V3)
  | [] => []
  | c :: cs =>
      (if c.isEnd then [] else goRec scale nframes endSites pw c) ++
        goRecJoints scale nframes endSites pw cs
termination_by l => 2 * sizeL l + 1
decreasing_by
  all_goals simp only [sizeL]
  · have := sizeT_pos c; omega
  · have := sizeT_pos c; omega

end

/-- `write_joint_positions(bvh_tree, ..., scale, end_sites)` of
`bvh2csv.py`: the recursive walk started at the root (for which the
`joint != root` test fails, hence no parent composition). -/
def posExportRec (scale : ℚ) (nframes : Nat) (endSites : Bool) (root : JTree) :
    List (String × List V3) :=
  goRec scale nframes endSites none root

theorem sizeL_append (a b : List JTree) : sizeL (a ++ b) = sizeL a + sizeL b := by
  induction a with
  | nil => simp [sizeL]
  | cons c cs ih => simp [sizeL, ih]; omega

theorem sizeL_reverse (a : List JTree) : sizeL a.reverse = sizeL a := by
  induction a with
  | nil => rfl
  | cons c cs ih => simp [sizeL, List.reverse_cons, sizeL_append, ih]; omega

theorem sizeL_filter_le (p : JTree → Bool) (l : List JTree) : sizeL (l.filter p) ≤ sizeL l := by
  induction l with
  | nil => simp [List.filter]
  | cons c cs ih =>
      by_cases h : p c
      · simpa [List.filter, h, sizeL] using ih
      · simp only [List.filter, h]
        simp only [sizeL]
        have := sizeT_pos c
        omega

theorem sizeL_split (p : JTree → Bool) (l : List JTree) :
    sizeL (l.filter p) + sizeL (l.filter (fun x => ! p x)) = sizeL l := by
  induction l with
  | nil => simp [List.filter, sizeL]
  | cons c cs ih =>
      by_cases h : p c <;> simp [List.filter, h, sizeL] <;> omega

theorem sizeT_le_of_mem {c : JTree} {l : List JTree} (h : c ∈ l) : sizeT c ≤ sizeL l := by
  induction l with
  | nil => simp at h
  | cons d ds ih =>
      rcases List.mem_cons.mp h with h1 | h1
      · subst h1; simp only [sizeL]; omega
      · have := ih h1; simp only [sizeL]; have := sizeT_pos d; omega

/-- The block a loop iteration of the stack-based exporter pushes for a
node's children is strictly smaller than the node. -/
theorem pushBlock_lt (endSites : Bool) (j : JTree) :
    sizeL ((if endSites then (j.children.find? JTree.isEnd).toList else []) ++
      j.children.filter (fun c => ! c.isEnd)) < sizeT j := by
  have hsplit := sizeL_split JTree.isEnd j.children
  have hend : sizeL (if endSites then (j.children.find? JTree.isEnd).toList else []) ≤
      sizeL (j.children.filter JTree.isEnd) := by
    cases endSites with
    | false => simp [sizeL]
    | true =>
        cases hf : j.children.find? JTree.isEnd with
        | none => simp [sizeL]
        | some c =>
            have h1 : sizeT c ≤ sizeL (j.children.filter JTree.isEnd) :=
              sizeT_le_of_mem (List.mem_filter.mpr ⟨List.mem_of_find?_eq_some hf, List.find?_some hf⟩)
            simp only [if_true, Option.toList, sizeL]
            omega
  rw [sizeL_append]
  have hj : sizeT j = 1 + sizeL j.children := by
    cases j with
    | mk n e o r p cs => rfl
  omega

/-- The stack of the iterative exporter: each pending node is paired
with its parent's stored world transforms at push time (`none` for the
root).  The Python list's tail is the stack top, so a pop-then-append
round maps to reversing the pushed block onto the head. -/
abbrev JStack := List (JTree × Option (List Aff))

def stackSize (st : JStack) : Nat := sizeL (st.map (fun e => e.1))

theorem sizeL_map_comp (x : Option (List Aff)) (l : List JTree) :
    sizeL (List.map ((fun (e : JTree × Option (List Aff)) => e.1) ∘ fun c => (c, x)) l) =
      sizeL l := by
  induction l with
  | nil => rfl
  | cons c cs ih => simp only [List.map_cons, Function.comp, sizeL, ih]

/-- `write_joint_positions` of `bvh2csv_dir/write_joint_positions.py`:
the `while joint_stack:` loop.  Each iteration pops the top node,
computes and emits its transforms exactly as the recursive variant
does, then pushes the first End-Site child (when `end_sites`) followed
by the `JOINT` children — which the stack then serves in reverse
order. -/
def goIter (scale : ℚ) (nframes : Nat) (endSites : Bool) : JStack → List (String × List V3)
  | [] => []
  | (j, pw) :: rest =>
      let wt := nodeWT scale nframes pw j
      visitEntry j wt ::
        goIter scale nframes endSites
          ((((if endSites then (j.children.find? JTree.isEnd).toList else []) ++
              j.children.filter (fun c => ! c.isEnd)).reverse.map (fun c => (c, some wt))) ++ rest)
termination_by st => stackSize st
decreasing_by
  simp only [stackSize, List.map_append, List.map_map, List.map_cons, sizeL_append, sizeL,
    dite_eq_ite]
  rw [sizeL_map_comp]
  have h1 := pushBlock_lt endSites j
  have h2 := sizeL_reverse ((if endSites then (j.children.find? JTree.isEnd).toList else []) ++
    j.children.filter (fun c => ! c.isEnd))
  omega

/-- The top-level iterative export, `joint_stack = [root]`. -/
def posExportIter (scale : ℚ) (nframes : Nat) (endSites : Bool) (root : JTree) :
    List (String × List V3) :=
  goIter scale nframes endSites [(root, none)]

/-- The CSV header both exporters write: `time` followed by
`name.x/name.y/name.z` for every visited joint, in visit order. -/
def headerOf (out : List (String × List V3)) : List String :=
  "time" :: out.flatMap (fun e => [e.1 ++ ".x", e.1 ++ ".y", e.1 ++ ".z"])

/-! ## The BVH→CSV table writers

`write_joint_hierarchy` and `write_joint_rotations` iterate over
`bvh_tree.get_joints(...)` — a `BvhTree` query outside the conversion
sources.  The flattened joint list it yields is taken as the input: one
entry per joint, in the tree's pre-order, End Sites included when the
query asks for them. -/

/-- A joint as yielded by `bvh_tree.get_joints(end_sites=True)`,
modelled from the spec: name, parent name (empty for the root), offset
vector, declared channel names in order, and whether the entry is an
End Site. -/
structure MJoint where
  name : String
  parent : String
  isEnd : Bool
  offset : V3
  channels : List String
deriving DecidableEq, Repr

/-- Python's `x[:20]`, the truncation applied by the numpy
`np.unicode_, 20` dtype of the hierarchy table: only the first 20
characters of a string are stored. -/
def trunc20 (s : String) : String := String.mk (s.data.take 20)

/-- `write_joint_hierarchy(bvh_tree, filepath, scale)` (both the
`bvh2csv.py` and the `bvh2csv_dir` copy build the identical array):
one row per joint including End Sites, `joint` and `parent` stored in
20-character unicode fields, offsets scaled and written with
`%10.5f`. -/
def write_joint_hierarchy (joints : List MJoint) (scale : ℚ) : List HRow :=
  joints.map (fun j =>
    ⟨trunc20 j.name, trunc20 j.parent,
      round5 (scale * j.offset.x), round5 (scale * j.offset.y), round5 (scale * j.offset.z)⟩)

/-- The rotation-channel filter of `write_joint_rotations`:
`[channel for channel in joint_channels if channel[1:] == 'rotation']`. -/
def rotChannelsOf (j : MJoint) : List String := j.channels.filter isRotCh

/-- The header of the rotation CSV (`write_joint_rotations`): `time`,
then `'{joint}.{channel[:1].lower()}'` per rotation channel per
non-End-Site joint, in declared order. -/
def rotHeader (joints : List MJoint) : List String :=
  "time" :: (joints.filter (fun j => ! j.isEnd)).flatMap
    (fun j => (rotChannelsOf j).map (fun ch => j.name ++ "." ++ firstLower ch))

/-- The data rows of the rotation CSV: `np.arange` produces the time
value `k * frame_time` for row `k`, and every cell is written with
`%10.5f`; the channel values (irrelevant to the properties below) are
supplied as `vals`. -/
def rotRows (n : Nat) (ft : ℚ) (vals : Nat → List ℚ) : List (List ℚ) :=
  (List.range n).map (fun k => round5 (((k : ℕ) : ℚ) * ft) :: (vals k).map BvhToolbox.round5)

/-- The data rows of the position CSV (`write_joint_positions`): the
`np.arange` time column (`k * frame_time` for each of the `nframes`
rows) stacked column-wise with the per-frame translation block of every
visited joint, in visit order, every cell written with `%10.5f`.  The
header of the same file is `headerOf` applied to the same visit
list. -/
def posRows (out : List (String × List V3)) (n : Nat) (ft : ℚ) : List (List ℚ) :=
  (List.range n).map (fun k =>
    round5 (((k : ℕ) : ℚ) * ft) ::
      out.flatMap (fun e =>
        [round5 ((e.2.getD k V3.zero).x), round5 ((e.2.getD k V3.zero).y),
         round5 ((e.2.getD k V3.zero).z)]))

/-! ## Claim C6: frame-time computation -/

/-- C6: for every 1-D cumulative time series with at least 2 samples,
`_get_frame_time` returns the last cumulative value divided by
`row count - 1`; in particular `[0.0, 0.1, 0.2]` yields `0.1`. -/
theorem frame_time_of_two_or_more (ts : List ℚ) (h : 2 ≤ ts.length) :
    _get_frame_time ts = .ok (some (ts.getLastD 0 / ((ts.length - 1 : ℕ) : ℚ))) := by
  match ts with
  | [] => simp at h
  | t :: rest =>
      have hn : ¬ ((t :: rest).length - 1 = 0) := by
        simp only [List.length_cons] at h ⊢
        omega
      simp only [_get_frame_time]
      rw [if_neg hn]

/-- Witness for C6 at the spec's concrete series `[0.0, 0.1, 0.2]`. -/
theorem frame_time_of_two_or_more_witness :
    2 ≤ ([0, 1/10, 2/10] : List ℚ).length ∧
      _get_frame_time [0, 1/10, 2/10] = .ok (some (1/10)) := by
  constructor
  · simp
  · rw [frame_time_of_two_or_more [0, 1/10, 2/10] (by simp)]
    norm_num [List.getLastD]

/-! ## Claim C7: degenerate time series

`_get_frame_time` contains no fewer-than-2-rows check: for a single
sample the numpy division `time_steps[-1] / 0` yields a non-finite
float and the function returns it as a value; for an empty array
`time_steps[-1]` raises a bare `IndexError`.  Neither outcome is the
structured degenerate-series failure the specification requires. -/

/-- C7: on the one-row series `[0.5]` the code returns a (non-finite)
value instead of raising, and on the empty series it fails with a bare
`IndexError` — there is no structured degenerate-time-series error. -/
theorem frame_time_degenerate_no_structured_error :
    _get_frame_time [(1 : ℚ) / 2] = .ok none ∧
      _get_frame_time ([] : List ℚ) = .error .indexError := by
  exact ⟨rfl, rfl⟩

/-! ## Claim C10: 20-character name fields in the hierarchy table -/

/-- C10: the hierarchy-table writer stores joint and parent names in
20-character fields — every emitted row carries exactly the first 20
characters of the names — so two joints whose names share their first
20 characters produce identical name fields; concretely, two distinct
21-character names yield identical rows. -/
theorem hierarchy_names_truncated_to_20 :
    (∀ (joints : List MJoint) (scale : ℚ),
      (write_joint_hierarchy joints scale).map (fun r => (r.joint, r.parent)) =
        joints.map (fun j => (String.mk (j.name.data.take 20), String.mk (j.parent.data.take 20)))) ∧
    (∀ (j1 j2 : MJoint) (scale : ℚ),
      j1.name.data.take 20 = j2.name.data.take 20 →
      (write_joint_hierarchy [j1] scale).map (fun r => r.joint) =
        (write_joint_hierarchy [j2] scale).map (fun r => r.joint)) ∧
    (write_joint_hierarchy [⟨"ABCDEFGHIJKLMNOPQRSTU", "", false, ⟨0, 0, 0⟩, []⟩] 1 =
        write_joint_hierarchy [⟨"ABCDEFGHIJKLMNOPQRSTV", "", false, ⟨0, 0, 0⟩, []⟩] 1 ∧
      ("ABCDEFGHIJKLMNOPQRSTU" : String) ≠ "ABCDEFGHIJKLMNOPQRSTV" ∧
      trunc20 "ABCDEFGHIJKLMNOPQRSTU" = "ABCDEFGHIJKLMNOPQRST") := by
  refine ⟨?_, ?_, ?_, ?_, ?_⟩
  · intro joints scale
    simp [write_joint_hierarchy, trunc20]
  · intro j1 j2 scale h
    simp [write_joint_hierarchy, trunc20, h]
  · rfl
  · decide
  · decide

/-! ## Claim C2: the hierarchy validator -/

/-- Number of joints naming an empty parent within a joint list. -/
def rootCountL (l : List (String × NodeProps)) : Nat :=
  (l.filter (fun e => e.2.parent = "")).length

/-- The three per-joint failure conditions of the validator: a joint
naming itself as parent, a joint whose parent appears among its own
children, and a nonempty parent that is not a key of the map. -/
def badNode (nodes : Nodes) (e : String × NodeProps) : Prop :=
  e.1 = e.2.parent ∨ e.2.parent ∈ e.2.children ∨ (e.2.parent ≠ "" ∧ ¬ hasKey nodes e.2.parent)

instance (nodes : Nodes) (e : String × NodeProps) : Decidable (badNode nodes e) := by
  unfold badNode; infer_instance

/-- The full failure condition of the validator as the claim states it:
more than one empty-parent joint, or a bad joint, or no empty-parent
joint. -/
def sanityViolation (nodes : Nodes) : Prop :=
  2 ≤ rootCountL nodes ∨ (∃ e ∈ nodes, badNode nodes e) ∨ rootCountL nodes = 0

instance (nodes : Nodes) : Decidable (sanityViolation nodes) := by
  unfold sanityViolation; infer_instance

theorem sanityAux_iff (nodes : Nodes) (fr : Bool) (l : List (String × NodeProps)) :
    isErr (sanityAux nodes fr l) = true ↔
      (2 ≤ rootCountL l + (if fr then 1 else 0) ∨ (∃ e ∈ l, badNode nodes e) ∨
        rootCountL l + (if fr then 1 else 0) = 0) := by
  induction l generalizing fr with
  | nil =>
      cases fr <;> simp [sanityAux, isErr, rootCountL]
  | cons e rest ih =>
      obtain ⟨n, p⟩ := e
      by_cases h1 : p.parent = "" ∧ fr = true
      · simp only [sanityAux]
        rw [if_pos h1]
        simp only [isErr]
        refine iff_of_true trivial (Or.inl ?_)
        have hc : rootCountL ((n, p) :: rest) = rootCountL rest + 1 := by
          simp [rootCountL, List.filter_cons, h1.1]
        rw [hc, h1.2]
        simp
      · by_cases h2 : n = p.parent
        · simp only [sanityAux]
          rw [if_neg h1, if_pos h2]
          simp only [isErr]
          exact iff_of_true trivial
            (Or.inr (Or.inl ⟨(n, p), List.mem_cons_self _ _, Or.inl h2⟩))
        · by_cases h3 : p.parent ∈ p.children
          · simp only [sanityAux]
            rw [if_neg h1, if_neg h2, if_pos h3]
            simp only [isErr]
            exact iff_of_true trivial
              (Or.inr (Or.inl ⟨(n, p), List.mem_cons_self _ _, Or.inr (Or.inl h3)⟩))
          · by_cases h4 : p.parent ≠ "" ∧ ¬ hasKey nodes p.parent
            · simp only [sanityAux]
              rw [if_neg h1, if_neg h2, if_neg h3, if_pos h4]
              simp only [isErr]
              exact iff_of_true trivial
                (Or.inr (Or.inl ⟨(n, p), List.mem_cons_self _ _, Or.inr (Or.inr h4)⟩))
            · have hbad : ¬ badNode nodes (n, p) := by
                unfold badNode
                push_neg
                push_neg at h4
                exact ⟨h2, h3, h4⟩
              have hbadext : (∃ e ∈ (n, p) :: rest, badNode nodes e) ↔
                  (∃ e ∈ rest, badNode nodes e) := by
                constructor
                · rintro ⟨x, hx, hbx⟩
                  rcases List.mem_cons.mp hx with h5 | h5
                  · rw [h5] at hbx
                    exact absurd hbx hbad
                  · exact ⟨x, h5, hbx⟩
                · rintro ⟨x, hx, hbx⟩
                  exact ⟨x, List.mem_cons_of_mem _ hx, hbx⟩
              simp only [sanityAux]
              rw [if_neg h1, if_neg h2, if_neg h3, if_neg h4]
              by_cases hp : p.parent = ""
              · have hfr : fr = false := by
                  cases fr
                  · rfl
                  · exact absurd ⟨hp, rfl⟩ h1
                subst hfr
                rw [if_pos hp, ih true, hbadext]
                have hcount : rootCountL ((n, p) :: rest) = rootCountL rest + 1 := by
                  simp [rootCountL, List.filter_cons, hp]
                rw [hcount]
                simp
              · rw [if_neg hp, ih fr, hbadext]
                have hcount : rootCountL ((n, p) :: rest) = rootCountL rest := by
                  simp [rootCountL, List.filter_cons, hp]
                rw [hcount]

theorem sanityAux_ok (nodes : Nodes) (fr : Bool) (l : List (String × NodeProps))
    (h : isErr (sanityAux nodes fr l) ≠ true) : sanityAux nodes fr l = .ok true := by
  induction l generalizing fr with
  | nil =>
      cases fr
      · simp [sanityAux, isErr] at h
      · rfl
  | cons e rest ih =>
      obtain ⟨n, p⟩ := e
      simp only [sanityAux] at h ⊢
      by_cases h1 : p.parent = "" ∧ fr = true
      · rw [if_pos h1] at h
        simp [isErr] at h
      · rw [if_neg h1] at h ⊢
        by_cases h2 : n = p.parent
        · rw [if_pos h2] at h
          simp [isErr] at h
        · rw [if_neg h2] at h ⊢
          by_cases h3 : p.parent ∈ p.children
          · rw [if_pos h3] at h
            simp [isErr] at h
          · rw [if_neg h3] at h ⊢
            by_cases h4 : p.parent ≠ "" ∧ ¬ hasKey nodes p.parent
            · rw [if_pos h4] at h
              simp [isErr] at h
            · rw [if_neg h4] at h ⊢
              exact ih _ h

/-- The mutually-parented two-joint map (children as `_update_children`
computes them). -/
def exMutual : Nodes :=
  [("A", ⟨"B", V3.zero, ["B"], []⟩), ("B", ⟨"A", V3.zero, ["A"], []⟩)]

/-- A map with two empty-parent joints. -/
def exTwoRoots : Nodes :=
  [("A", ⟨"", V3.zero, [], []⟩), ("B", ⟨"", V3.zero, [], []⟩)]

/-- A map whose second joint names an absent parent. -/
def exAbsentParent : Nodes :=
  [("A", ⟨"", V3.zero, ["B"], []⟩), ("B", ⟨"C", V3.zero, [], []⟩)]

/-- C2: `hierarchy_sanity_check` raises if and only if the map has more
than one empty-parent joint, or a self-parented joint, or a joint whose
parent appears among its own children, or a nonempty parent that is not
a key, or no empty-parent joint; otherwise it returns `True`.  In
particular it rejects a mutually-parented pair, a two-root list, and a
map with an absent parent name. -/
theorem validator_error_iff :
    (∀ nodes : Nodes,
      (isErr (hierarchy_sanity_check nodes) = true ↔ sanityViolation nodes) ∧
      (¬ sanityViolation nodes → hierarchy_sanity_check nodes = .ok true)) ∧
    isErr (hierarchy_sanity_check exMutual) = true ∧
    isErr (hierarchy_sanity_check exTwoRoots) = true ∧
    isErr (hierarchy_sanity_check exAbsentParent) = true := by
  refine ⟨?_, by decide, by decide, by decide⟩
  intro nodes
  have hmain : isErr (hierarchy_sanity_check nodes) = true ↔ sanityViolation nodes := by
    unfold hierarchy_sanity_check sanityViolation
    rw [sanityAux_iff nodes false nodes]
    simp
  refine ⟨hmain, ?_⟩
  intro hv
  exact sanityAux_ok nodes false nodes (fun hh => hv (hmain.mp hh))

/-! ## Claims C3 and C4: scaling and composition of world transforms -/

theorem V3_smul_one (v : V3) : V3.smul 1 v = v := by
  cases v; simp [V3.smul]

/-- The translations of a zipWith-composed transform list depend only
on the parent transforms and the substituted offset, never on the
child's own rotation data. -/
theorem zipWith_compose_translations (off : V3) (pw base : List Aff)
    (h : base.length = pw.length) :
    (List.zipWith (fun p b => Aff.mul p { b with t := off }) pw base).map (fun a => a.t) =
      pw.map (fun a => V3.add (M3.mulV a.R off) a.t) := by
  induction pw generalizing base with
  | nil => simp
  | cons p ps ih =>
      cases base with
      | nil => simp at h
      | cons b bs =>
          have hih := ih bs (by simpa using h)
          simp only [List.zipWith, List.map_cons, hih]
          rfl

theorem getAffines_translations (rots : List M3) (posVals : List V3)
    (h : rots.length = posVals.length) :
    (getAffines rots posVals).map (fun a => a.t) = posVals := by
  induction rots generalizing posVals with
  | nil =>
      cases posVals with
      | nil => rfl
      | cons v vs => simp at h
  | cons r rs ih =>
      cases posVals with
      | nil => simp at h
      | cons v vs =>
          simp only [getAffines, List.zipWith, List.map_cons]
          have := ih vs (by simpa using h)
          simp only [getAffines] at this
          rw [this]

/-- The scale step `if scale != 1.0: t *= scale` leaves translations
equal to the componentwise scaling in both branches. -/
theorem nodeScale_translations (scale : ℚ) (wt : List Aff) :
    (nodeScale scale wt).map (fun a => a.t) = (wt.map (fun a => a.t)).map (V3.smul scale) := by
  unfold nodeScale
  by_cases h : scale = 1
  · subst h
    simp [V3_smul_one]
  · simp [if_neg h, List.map_map, Function.comp]

theorem nodeBase_length (nframes : Nat) (j : JTree) (h1 : j.rots.length = nframes)
    (h2 : j.posVals.length = nframes) : (nodeBase nframes j).length = nframes := by
  unfold nodeBase
  by_cases he : j.isEnd
  · simp [he]
  · simp only [he, if_false, Bool.false_eq_true]
    unfold getAffines
    simp [h1, h2]

theorem goRec_head (scale : ℚ) (nframes : Nat) (endSites : Bool) (pw : Option (List Aff))
    (j : JTree) :
    (goRec scale nframes endSites pw j).head? = some (visitEntry j (nodeWT scale nframes pw j)) := by
  rw [goRec]
  rfl

/-- C4: for every frame of the export, the root's emitted world
translation is exactly its position-channel values multiplied by the
scale factor, and a non-root joint's emitted world translation is the
function `scale * (parent_R * offset + parent_t)` of its parent's
stored world transform and its fixed offset alone — in particular it is
unchanged under any change of the joint's own rotation data. -/
theorem root_translation_and_child_independence :
    (∀ (scale : ℚ) (nframes : Nat) (endSites : Bool) (n : String) (o : V3)
        (rots : List M3) (posVals : List V3) (cs : List JTree),
      rots.length = nframes → posVals.length = nframes →
      ((goRec scale nframes endSites none (.mk n false o rots posVals cs)).head?.map
          (fun e => e.2)) = some (posVals.map (V3.smul scale))) ∧
    (∀ (scale : ℚ) (nframes : Nat) (endSites : Bool) (pw : List Aff) (j : JTree),
      pw.length = nframes → j.rots.length = nframes → j.posVals.length = nframes →
      ((goRec scale nframes endSites (some pw) j).head?.map (fun e => e.2)) =
        some (pw.map (fun a => V3.smul scale (V3.add (M3.mulV a.R j.offset) a.t)))) ∧
    (∀ (scale : ℚ) (nframes : Nat) (endSites : Bool) (pw : List Aff) (n : String)
        (e : Bool) (o : V3) (rots1 rots2 : List M3) (posVals : List V3) (cs : List JTree),
      pw.length = nframes → rots1.length = nframes → rots2.length = nframes →
      posVals.length = nframes →
      ((goRec scale nframes endSites (some pw) (.mk n e o rots1 posVals cs)).head?.map
          (fun x => x.2)) =
        ((goRec scale nframes endSites (some pw) (.mk n e o rots2 posVals cs)).head?.map
          (fun x => x.2))) := by
  have hnonroot : ∀ (scale : ℚ) (nframes : Nat) (endSites : Bool) (pw : List Aff) (j : JTree),
      pw.length = nframes → j.rots.length = nframes → j.posVals.length = nframes →
      ((goRec scale nframes endSites (some pw) j).head?.map (fun e => e.2)) =
        some (pw.map (fun a => V3.smul scale (V3.add (M3.mulV a.R j.offset) a.t))) := by
    intro scale nframes endSites pw j hpw h1 h2
    rw [goRec_head]
    simp only [Option.map_some, visitEntry]
    unfold nodeWT
    rw [nodeScale_translations]
    simp only [nodeCompose]
    rw [zipWith_compose_translations j.offset pw _ (by rw [nodeBase_length nframes j h1 h2, hpw])]
    simp [List.map_map, Function.comp, V3.add, M3.mulV, V3.smul]
  refine ⟨?_, hnonroot, ?_⟩
  · intro scale nframes endSites n o rots posVals cs h1 h2
    rw [goRec_head]
    simp only [Option.map_some, visitEntry]
    unfold nodeWT
    rw [nodeScale_translations]
    simp only [nodeCompose, nodeBase, JTree.isEnd, Bool.false_eq_true, if_false,
      JTree.rots, JTree.posVals]
    rw [getAffines_translations rots posVals (by rw [h1, h2])]
    rfl
  · intro scale nframes endSites pw n e o rots1 rots2 posVals cs hpw h1 h2 h3
    rw [hnonroot scale nframes endSites pw (.mk n e o rots1 posVals cs) hpw h1 h3,
      hnonroot scale nframes endSites pw (.mk n e o rots2 posVals cs) hpw h2 h3]
    rfl

/-- Witness for the hypothesis-bearing conjuncts of C4 at a one-frame
root with a single child. -/
theorem root_translation_and_child_independence_witness :
    ([M3.id] : List M3).length = 1 ∧ ([⟨1, 2, 3⟩] : List V3).length = 1 ∧
      ((goRec 1 1 false none (.mk "R" false ⟨0, 0, 0⟩ [M3.id] [⟨1, 2, 3⟩] [])).head?.map
          (fun e => e.2)) = some ([⟨(1 : ℚ), 2, 3⟩].map (V3.smul 1)) ∧
      ((goRec 1 1 false (some [Aff.id]) (.mk "A" false ⟨5, 0, 0⟩ [M3.id] [⟨0, 0, 0⟩] [])).head?.map
          (fun e => e.2)) =
        some ([Aff.id].map (fun a => V3.smul 1 (V3.add (M3.mulV a.R ⟨5, 0, 0⟩) a.t))) := by
  refine ⟨rfl, rfl, ?_, ?_⟩
  · exact root_translation_and_child_independence.1 1 1 false "R" ⟨0, 0, 0⟩ [M3.id]
      [⟨1, 2, 3⟩] [] rfl rfl
  · exact root_translation_and_child_independence.2.1 1 1 false [Aff.id]
      (.mk "A" false ⟨5, 0, 0⟩ [M3.id] [⟨0, 0, 0⟩] []) rfl rfl rfl

/-- The two-joint chain of the C3 failing input: a root with a nonzero
position channel value and a child with zero offset and identity local
rotation, one frame of motion. -/
def exScaleChild : JTree := .mk "A" false ⟨0, 0, 0⟩ [M3.id] [⟨0, 0, 0⟩] []

def exScaleTree : JTree := .mk "R" false ⟨0, 0, 0⟩ [M3.id] [⟨1, 0, 0⟩] [exScaleChild]

/-- C3 (code bug): with scale 2, the exporter writes the child of a
root translated to (1,0,0) at (4,0,0), because the in-place
`world_transforms[:, :3, 3] *= scale` is applied to the parent before
the child composes with the parent's stored (already scaled) transform
and is then applied to the child again; scaling the unscaled export by
2 gives (2,0,0) instead, so the output is not `scale` times the
unscaled world translation. -/
theorem scale_applied_to_ancestors_repeatedly :
    posExportRec 2 1 false exScaleTree =
      [("R", [⟨2, 0, 0⟩]), ("A", [⟨4, 0, 0⟩])] ∧
    posExportRec 1 1 false exScaleTree =
      [("R", [⟨1, 0, 0⟩]), ("A", [⟨1, 0, 0⟩])] ∧
    posExportRec 2 1 false exScaleTree ≠
      (posExportRec 1 1 false exScaleTree).map (fun e => (e.1, e.2.map (V3.smul 2))) := by
  have h1 : posExportRec 2 1 false exScaleTree = [("R", [⟨2, 0, 0⟩]), ("A", [⟨4, 0, 0⟩])] := by
    unfold posExportRec exScaleTree exScaleChild
    rw [goRec]
    simp only [JTree.children, if_false, Bool.false_eq_true, goRecJoints, goRecEnd,
      JTree.isEnd]
    rw [goRec]
    simp only [JTree.children, goRecJoints, goRecEnd, JTree.isEnd, Bool.false_eq_true,
      if_false]
    simp only [visitEntry, nodeWT, nodeBase, nodeCompose, nodeScale, getAffines, JTree.isEnd,
      JTree.rots, JTree.posVals, JTree.offset, JTree.name, Bool.false_eq_true, if_false,
      List.zipWith, Aff.mul, M3.mul, M3.mulV, V3.add, V3.smul, M3.id, List.map]
    norm_num
  have h2 : posExportRec 1 1 false exScaleTree = [("R", [⟨1, 0, 0⟩]), ("A", [⟨1, 0, 0⟩])] := by
    unfold posExportRec exScaleTree exScaleChild
    rw [goRec]
    simp only [JTree.children, if_false, Bool.false_eq_true, goRecJoints, goRecEnd,
      JTree.isEnd]
    rw [goRec]
    simp only [JTree.children, goRecJoints, goRecEnd, JTree.isEnd, Bool.false_eq_true,
      if_false]
    simp only [visitEntry, nodeWT, nodeBase, nodeCompose, nodeScale, getAffines, JTree.isEnd,
      JTree.rots, JTree.posVals, JTree.offset, JTree.name, Bool.false_eq_true, if_false,
      List.zipWith, Aff.mul, M3.mul, M3.mulV, V3.add, V3.smul, M3.id, List.map]
    norm_num
  refine ⟨h1, h2, ?_⟩
  rw [h1, h2]
  intro hcontra
  have hlast := congrArg (fun l => l.getLast?) hcontra
  simp [List.map, V3.smul] at hlast

/-! ## Claim C1: scope closing in the hierarchy composer -/

/-- The indentation level of the last line a joint's block leaves
behind: its own depth when it is childless (the `End Site` block closes
its own scope, ending in a `}` line at depth `d`), its depth plus one
otherwise (the block ends in the `CHANNELS` line at depth `d+1`). -/
def refDepth (nodes : Nodes) (e : String × NodeProps) : Nat :=
  if e.2.children = [] then _get_joint_depth nodes e.1 else _get_joint_depth nodes e.1 + 1

theorem countDS_cons_cons (a b : Char) (rest : List Char) :
    countDS (a :: b :: rest) =
      if a = ' ' ∧ b = ' ' then countDS rest + 1 else countDS (b :: rest) := rfl

theorem countDS_replicate_sp (d : Nat) (cs : List Char) :
    countDS (List.replicate (2 * d) ' ' ++ cs) = d + countDS cs := by
  induction d with
  | zero => simp
  | succ k ih =>
      have h2 : 2 * (k + 1) = 2 * k + 1 + 1 := by ring
      rw [h2, List.replicate_succ, List.replicate_succ, List.cons_append, List.cons_append]
      rw [countDS_cons_cons]
      rw [if_pos ⟨rfl, rfl⟩]
      rw [ih]
      omega

theorem sp_data (d : Nat) : (sp d).data = List.replicate (2 * d) ' ' := rfl

theorem countDS_sp_line (d : Nat) (s : String) :
    countDS (sp d ++ s).data = d + countDS s.data := by
  rw [String.data_append, sp_data, countDS_replicate_sp]

theorem lastLine_concat (ls : List String) (a : String) : lastLine (ls ++ [a]) = a := by
  simp [lastLine, List.getLastD_eq_getLast?, List.getLast?_append]

theorem lastLine_append (acc ls : List String) (h : ls ≠ []) :
    lastLine (acc ++ ls) = lastLine ls := by
  rcases (List.eq_nil_or_concat ls) with h1 | ⟨l2, a, rfl⟩
  · exact absurd h1 h
  · rw [List.concat_eq_append, ← List.append_assoc, lastLine_concat, lastLine_concat]

theorem jointLines_eq (d : Nat) (name : String) (p : NodeProps) :
    jointLines d name p =
      [if p.parent = "" then sp d ++ "ROOT " ++ name
       else if p.children = [] then sp d ++ "End Site"
       else sp d ++ "JOINT " ++ name,
       sp d ++ obStr, sp (d + 1) ++ "OFFSET " ++ offsetStr p.offset] ++
        (if p.children = [] then [sp d ++ cbStr] else [sp (d + 1) ++ channelsText p]) := by
  unfold jointLines
  by_cases h : p.children = [] <;> simp [h]

theorem jointLines_ne_nil (d : Nat) (name : String) (p : NodeProps) :
    jointLines d name p ≠ [] := by
  rw [jointLines_eq]
  simp

theorem lastLine_jointLines (d : Nat) (name : String) (p : NodeProps) :
    lastLine (jointLines d name p) =
      if p.children = [] then sp d ++ cbStr else sp (d + 1) ++ channelsText p := by
  rw [jointLines_eq]
  by_cases h : p.children = [] <;> simp only [h, if_true, if_false] <;> rfl

theorem countDS_lastLine_jointLines (nodes : Nodes) (e : String × NodeProps)
    (hch : countDS (channelsText e.2).data = 0) :
    countDS (lastLine (jointLines (_get_joint_depth nodes e.1) e.1 e.2)).data =
      refDepth nodes e := by
  rw [lastLine_jointLines]
  unfold refDepth
  by_cases h : e.2.children = []
  · rw [if_pos h, if_pos h, countDS_sp_line]
    simp [cbStr, countDS]
  · rw [if_neg h, if_neg h, countDS_sp_line, hch]

theorem closeBraceLines_length (a b : Nat) : (closeBraceLines a b).length = a - b := by
  simp [closeBraceLines]

theorem hierStep_lastLine (nodes : Nodes) (acc : List String) (e : String × NodeProps)
    (hch : countDS (channelsText e.2).data = 0) :
    countDS (lastLine (hierStep nodes acc e)).data = refDepth nodes e := by
  unfold hierStep _close_scopes
  rw [lastLine_append _ _ (jointLines_ne_nil _ _ _)]
  exact countDS_lastLine_jointLines nodes e hch

/-- C1 key step: the number of closing braces emitted just before the
block of joint `i` is the last block's final indentation (`refDepth` of
the previous joint) minus the current joint's depth, truncated at
zero. -/
theorem closeCountBefore_eq (nodes : Nodes) (i : Nat) (ep ec : String × NodeProps)
    (hp : nodes.get? (i - 1) = some ep) (hc : nodes.get? i = some ec) (hi : 1 ≤ i)
    (hch : countDS (channelsText ep.2).data = 0) :
    closeCountBefore nodes i = refDepth nodes ep - _get_joint_depth nodes ec.1 := by
  unfold closeCountBefore
  rw [hc]
  have h0 : i - 1 + 1 = i := by omega
  have htake : nodes.take i = nodes.take (i - 1) ++ [ep] := by
    rw [← h0, List.take_succ]
    rw [← List.get?_eq_getElem?, hp]
    rfl
  rw [htake]
  unfold hierAccum
  rw [List.foldl_append]
  simp only [List.foldl_cons, List.foldl_nil]
  rw [closeBraceLines_length]
  rw [hierStep_lastLine nodes _ ep hch]

/-- Total occurrences of a character over a list of lines. -/
def charCount (c : Char) (lines : List String) : Nat :=
  (lines.map (fun l => l.data.count c)).sum

/-- A string that contains neither brace character. -/
def braceFreeStr (s : String) : Prop := obrace ∉ s.data ∧ cbrace ∉ s.data

instance (s : String) : Decidable (braceFreeStr s) := by unfold braceFreeStr; infer_instance

/-- The textual side conditions on a joint entry under which brace
counting is exact: the name, the rendered offset and the rendered
channel list contain no brace characters, and the `CHANNELS` line text
contains no double space. -/
def entryOk (e : String × NodeProps) : Prop :=
  braceFreeStr e.1 ∧ braceFreeStr (offsetStr e.2.offset) ∧
    braceFreeStr (channelsText e.2) ∧ countDS (channelsText e.2).data = 0

instance (e : String × NodeProps) : Decidable (entryOk e) := by unfold entryOk; infer_instance

/-- The pre-order condition on the flat joint list: each joint's depth
is at most the reference indentation left by its predecessor (its
predecessor's depth when that one is childless, one more otherwise),
starting from reference level 0. -/
def chainOkB (nodes : Nodes) : Nat → List (String × NodeProps) → Bool
  | _, [] => true
  | r, e :: rest =>
      decide (_get_joint_depth nodes e.1 ≤ r) && chainOkB nodes (refDepth nodes e) rest

/-- The reference indentation after folding a block list: the initial
level if the list is empty, the last entry's `refDepth` otherwise. -/
def finalRef (nodes : Nodes) (r : Nat) (l : List (String × NodeProps)) : Nat :=
  match l.getLast? with
  | none => r
  | some e => refDepth nodes e

theorem finalRef_nil (nodes : Nodes) (r : Nat) : finalRef nodes r [] = r := rfl

theorem finalRef_cons (nodes : Nodes) (r : Nat) (e : String × NodeProps)
    (rest : List (String × NodeProps)) :
    finalRef nodes r (e :: rest) = finalRef nodes (refDepth nodes e) rest := by
  unfold finalRef
  cases rest with
  | nil => rfl
  | cons f fs =>
      rw [List.getLast?_cons_cons]
      cases h : (f :: fs).getLast? with
      | none => simp at h
      | some x => rfl

theorem charCount_append (c : Char) (a b : List String) :
    charCount c (a ++ b) = charCount c a + charCount c b := by
  simp [charCount]

theorem charCount_str_append (c : Char) (s t : String) :
    ((s ++ t).data.count c) = s.data.count c + t.data.count c := by
  rw [String.data_append, List.count_append]

theorem count_eq_zero_of_not_mem {c : Char} {s : String} (h : c ∉ s.data) :
    s.data.count c = 0 := List.count_eq_zero.mpr h

theorem count_sp (c : Char) (d : Nat) (h : c ≠ ' ') : (sp d).data.count c = 0 := by
  rw [sp_data]
  apply count_eq_zero_of_not_mem
  intro hmem
  exact h (List.eq_of_mem_replicate hmem)

theorem obrace_ne_space : obrace ≠ ' ' := by decide

theorem cbrace_ne_space : cbrace ≠ ' ' := by decide

theorem charCount_jointLines_gen (c : Char) (d : Nat) (name : String) (p : NodeProps)
    (hcsp : c ≠ ' ') (hro : ("ROOT " : String).data.count c = 0)
    (hjo : ("JOINT " : String).data.count c = 0)
    (hes : ("End Site" : String).data.count c = 0)
    (hof : ("OFFSET " : String).data.count c = 0)
    (hname : name.data.count c = 0) (hoff : (offsetStr p.offset).data.count c = 0)
    (hchan : (channelsText p).data.count c = 0) :
    charCount c (jointLines d name p) =
      obStr.data.count c + (if p.children = [] then cbStr.data.count c else 0) := by
  have hobl : (sp d ++ obStr).data.count c = obStr.data.count c := by
    rw [charCount_str_append, count_sp c d hcsp]
    omega
  have hoffl : (sp (d + 1) ++ "OFFSET " ++ offsetStr p.offset).data.count c = 0 := by
    rw [charCount_str_append, charCount_str_append, count_sp c (d + 1) hcsp, hof, hoff]
  rw [jointLines_eq, charCount_append]
  by_cases h : p.children = []
  · rw [if_pos h, if_pos h]
    simp only [charCount, List.map, List.sum_cons, List.sum_nil]
    have hhdr : (if p.parent = "" then sp d ++ "ROOT " ++ name
        else sp d ++ "End Site").data.count c = 0 := by
      by_cases h1 : p.parent = ""
      · rw [if_pos h1, charCount_str_append, charCount_str_append, count_sp c d hcsp, hro,
          hname]
      · rw [if_neg h1, charCount_str_append, count_sp c d hcsp, hes]
    rw [hhdr, hobl, hoffl, charCount_str_append, count_sp c d hcsp]
    simp [h]
  · rw [if_neg h, if_neg h]
    simp only [charCount, List.map, List.sum_cons, List.sum_nil]
    have hhdr : (if p.parent = "" then sp d ++ "ROOT " ++ name
        else sp d ++ "JOINT " ++ name).data.count c = 0 := by
      by_cases h1 : p.parent = ""
      · rw [if_pos h1, charCount_str_append, charCount_str_append, count_sp c d hcsp, hro,
          hname]
      · rw [if_neg h1, charCount_str_append, charCount_str_append, count_sp c d hcsp, hjo,
          hname]
    rw [hhdr, hobl, hoffl, charCount_str_append, count_sp c (d + 1) hcsp, hchan]
    simp [h]

theorem charCount_jointLines_ob (d : Nat) (e : String × NodeProps) (hok : entryOk e) :
    charCount obrace (jointLines d e.1 e.2) = 1 := by
  obtain ⟨hn, hoff, hchan, _⟩ := hok
  rw [charCount_jointLines_gen obrace d e.1 e.2 obrace_ne_space (by decide) (by decide)
    (by decide) (by decide) (count_eq_zero_of_not_mem hn.1)
    (count_eq_zero_of_not_mem hoff.1) (count_eq_zero_of_not_mem hchan.1)]
  have h1 : obStr.data.count obrace = 1 := by decide
  have h2 : cbStr.data.count obrace = 0 := by decide
  rw [h1, h2]
  by_cases h : e.2.children = [] <;> simp [h]

theorem charCount_jointLines_cb (d : Nat) (e : String × NodeProps) (hok : entryOk e) :
    charCount cbrace (jointLines d e.1 e.2) = if e.2.children = [] then 1 else 0 := by
  obtain ⟨hn, hoff, hchan, _⟩ := hok
  rw [charCount_jointLines_gen cbrace d e.1 e.2 cbrace_ne_space (by decide) (by decide)
    (by decide) (by decide) (count_eq_zero_of_not_mem hn.2)
    (count_eq_zero_of_not_mem hoff.2) (count_eq_zero_of_not_mem hchan.2)]
  have h1 : obStr.data.count cbrace = 0 := by decide
  have h2 : cbStr.data.count cbrace = 1 := by decide
  rw [h1, h2]
  simp

theorem charCount_closeBraceLines (c : Char) (a b : Nat) (hcsp : c ≠ ' ') :
    charCount c (closeBraceLines a b) = (a - b) * cbStr.data.count c := by
  unfold closeBraceLines
  generalize a - b = n
  induction n with
  | zero => simp [charCount]
  | succ k ih =>
      rw [List.range_succ, List.map_append, charCount_append, ih]
      simp only [List.map, charCount, List.sum_cons, List.sum_nil]
      rw [charCount_str_append, count_sp c _ hcsp]
      ring

/-- The invariant of the composer fold: after emitting any block list
in pre-order (in the sense of `chainOkB`), the last line's indentation
level equals the open-scope surplus of `{` lines over `}` characters,
namely the last emitted joint's reference depth. -/
theorem hierFold_invariant (nodes : Nodes) (l : List (String × NodeProps)) :
    ∀ (acc : List String) (r : Nat),
      (∀ e ∈ l, entryOk e) → chainOkB nodes r l = true →
      countDS (lastLine acc).data = r →
      charCount obrace acc = charCount cbrace acc + r →
      countDS (lastLine (l.foldl (hierStep nodes) acc)).data = finalRef nodes r l ∧
      charCount obrace (l.foldl (hierStep nodes) acc) =
        charCount cbrace (l.foldl (hierStep nodes) acc) + finalRef nodes r l := by
  induction l with
  | nil =>
      intro acc r _ _ h1 h2
      exact ⟨h1, h2⟩
  | cons e rest ih =>
      intro acc r hok hchain h1 h2
      have hok_e : entryOk e := hok e (List.mem_cons_self _ _)
      have hchain2 : _get_joint_depth nodes e.1 ≤ r ∧
          chainOkB nodes (refDepth nodes e) rest = true := by
        simpa [chainOkB, Bool.and_eq_true, decide_eq_true_eq] using hchain
      rw [List.foldl_cons, finalRef_cons]
      apply ih (hierStep nodes acc e) (refDepth nodes e)
        (fun x hx => hok x (List.mem_cons_of_mem _ hx)) hchain2.2
      · exact hierStep_lastLine nodes acc e hok_e.2.2.2
      · unfold hierStep _close_scopes
        rw [h1]
        rw [charCount_append, charCount_append, charCount_append, charCount_append]
        rw [charCount_jointLines_ob _ e hok_e, charCount_jointLines_cb _ e hok_e]
        rw [charCount_closeBraceLines obrace r _ obrace_ne_space,
          charCount_closeBraceLines cbrace r _ cbrace_ne_space]
        have hc1 : cbStr.data.count obrace = 0 := by decide
        have hc2 : cbStr.data.count cbrace = 1 := by decide
        rw [hc1, hc2, h2]
        unfold refDepth
        have hd := hchain2.1
        by_cases hch : e.2.children = [] <;> simp [hch] <;> omega

/-- After the final `_close_scopes(s, 0)` the emitted hierarchy text is
brace-balanced: it contains as many `}` characters as `{` lines —
every scope opened for a joint has been closed again. -/
theorem hierarchy_balanced (nodes : Nodes) (hok : ∀ e ∈ nodes, entryOk e)
    (hchain : chainOkB nodes 0 nodes = true) :
    charCount obrace (_get_hierarchy_string nodes) =
      charCount cbrace (_get_hierarchy_string nodes) := by
  have hinv := hierFold_invariant nodes nodes ["HIERARCHY"] 0 hok hchain (by decide) (by decide)
  unfold _get_hierarchy_string _close_scopes hierAccum
  unfold hierAccum at hinv
  rw [charCount_append, charCount_append]
  rw [hinv.1]
  rw [charCount_closeBraceLines obrace _ 0 obrace_ne_space,
    charCount_closeBraceLines cbrace _ 0 cbrace_ne_space]
  have h1 : cbStr.data.count obrace = 0 := by decide
  have h2 : cbStr.data.count cbrace = 1 := by decide
  rw [h1, h2, hinv.2]
  omega

/-- The spec's scope-closing scenario: a flat pre-ordered map with
depths [0, 1, 2, 1, 0] (a second root-level entry included, exactly as
the claim words it). -/
def exC1 : Nodes :=
  [("A", ⟨"", ⟨0, 0, 0⟩, ["B", "D"],
      ["Xposition", "Yposition", "Zposition", "Zrotation", "Xrotation", "Yrotation"]⟩),
   ("B", ⟨"A", ⟨0, 1, 0⟩, ["C"], ["Zrotation", "Xrotation", "Yrotation"]⟩),
   ("C", ⟨"B", ⟨0, 1, 0⟩, [], []⟩),
   ("D", ⟨"A", ⟨1, 0, 0⟩, [], []⟩),
   ("E", ⟨"", ⟨0, 0, 0⟩, [], []⟩)]

/-- C1 (amended): before emitting a joint's block the composer closes
`last_indent - current_depth` scopes, where `last_indent` is the
previous joint's depth when that joint is childless (its `End Site`
block closed its own scope already) and its depth plus one otherwise —
`previous_depth - current_depth + 1` braces therefore appear between
the blocks only counting the end site's own closer, not in the
`_close_scopes` call itself; no brace is emitted when the current joint
is strictly deeper (the truncated subtraction is zero); and after the
last joint the final `_close_scopes(s, 0)` leaves the whole text
brace-balanced.  On depths [0,1,2,1,0] exactly one brace is emitted at
the 2→1 transition, and the full output is balanced. -/
theorem composer_scope_closing :
    (∀ (nodes : Nodes) (i : Nat) (ep ec : String × NodeProps),
      nodes.get? (i - 1) = some ep → nodes.get? i = some ec → 1 ≤ i →
      countDS (channelsText ep.2).data = 0 →
      closeCountBefore nodes i = refDepth nodes ep - _get_joint_depth nodes ec.1) ∧
    (∀ nodes : Nodes, (∀ e ∈ nodes, entryOk e) → chainOkB nodes 0 nodes = true →
      charCount obrace (_get_hierarchy_string nodes) =
        charCount cbrace (_get_hierarchy_string nodes)) ∧
    closeCountBefore exC1 3 = 1 ∧
    charCount obrace (_get_hierarchy_string exC1) =
      charCount cbrace (_get_hierarchy_string exC1) := by
  exact ⟨closeCountBefore_eq, hierarchy_balanced, by decide, by decide⟩

/-- C1 counterexample: on the claim's own depths [0,1,2,1,0] the
composer emits exactly one closing brace before the depth-1 joint that
follows the depth-2 end site, not `previous_depth - current_depth + 1 = 2`
braces as the claim's general formula demands. -/
theorem close_scopes_formula_counterexample :
    closeCountBefore exC1 3 = 1 ∧
      _get_joint_depth exC1 "C" = 2 ∧ _get_joint_depth exC1 "D" = 1 ∧
      closeCountBefore exC1 3 ≠
        _get_joint_depth exC1 "C" - _get_joint_depth exC1 "D" + 1 := by decide

/-! ## Claim C8: the rotation-coverage check -/

theorem mem_pySorted (l : List String) (s : String) : s ∈ pySorted l ↔ s ∈ l :=
  (List.perm_insertionSort pyLe l).mem_iff

theorem pySorted_nodup {l : List String} (h : l.Nodup) : (pySorted l).Nodup :=
  ((List.perm_insertionSort pyLe l).nodup_iff).mpr h

theorem pySorted_sorted (l : List String) : List.Sorted pyLe (pySorted l) :=
  List.sorted_insertionSort pyLe l

/-- Two deduplicated string lists have equal `sorted` images exactly
when they contain the same strings. -/
theorem pySorted_eq_iff {a b : List String} (ha : a.Nodup) (hb : b.Nodup) :
    pySorted a = pySorted b ↔ (∀ s, s ∈ a ↔ s ∈ b) := by
  constructor
  · intro h s
    rw [← mem_pySorted a s, ← mem_pySorted b s, h]
  · intro h
    have hperm : a.Perm b := (List.perm_ext_iff_of_nodup ha hb).mpr h
    exact List.eq_of_perm_of_sorted
      ((List.perm_insertionSort pyLe a).trans (hperm.trans (List.perm_insertionSort pyLe b).symm))
      (pySorted_sorted a) (pySorted_sorted b)

/-- A rotation-table column (other than `time`) names the joint `s`. -/
def colCovers (rotCols : List String) (s : String) : Prop :=
  ∃ c ∈ rotCols, c ≠ "time" ∧ colJoint c = s

instance (rotCols : List String) (s : String) : Decidable (colCovers rotCols s) := by
  unfold colCovers; infer_instance

/-- The hierarchy has a joint named `s` with at least one child. -/
def hasChildJoint (nodes : Nodes) (s : String) : Prop :=
  ∃ e ∈ nodes, e.2.children ≠ [] ∧ e.1 = s

instance (nodes : Nodes) (s : String) : Decidable (hasChildJoint nodes s) := by
  unfold hasChildJoint; infer_instance

theorem mem_df_to_joints (rotCols : List String) (s : String) :
    s ∈ df_to_joints rotCols ↔ colCovers rotCols s := by
  unfold df_to_joints colCovers
  rw [mem_pySorted, List.mem_dedup, List.mem_map]
  constructor
  · rintro ⟨c, hc, rfl⟩
    have hc2 := List.mem_filter.mp hc
    exact ⟨c, hc2.1, by simpa using hc2.2, rfl⟩
  · rintro ⟨c, hc, hne, rfl⟩
    exact ⟨c, List.mem_filter.mpr ⟨hc, by simpa using hne⟩, rfl⟩

theorem mem_nonLeafSorted (nodes : Nodes) (s : String) :
    s ∈ nonLeafSorted nodes ↔ hasChildJoint nodes s := by
  unfold nonLeafSorted hasChildJoint
  rw [mem_pySorted, List.mem_map]
  constructor
  · rintro ⟨e, he, rfl⟩
    have he2 := List.mem_filter.mp he
    exact ⟨e, he2.1, by simpa using he2.2, rfl⟩
  · rintro ⟨e, he, hne, rfl⟩
    exact ⟨e, List.mem_filter.mpr ⟨he, by simpa using hne⟩, rfl⟩

theorem nonLeafSorted_base_nodup (nodes : Nodes)
    (hkeys : (nodes.map (fun e => e.1)).Nodup) :
    ((nodes.filter (fun e => e.2.children ≠ [])).map (fun e => e.1)).Nodup :=
  hkeys.sublist ((nodes.filter_sublist (p := fun e => e.2.children ≠ [])).map (fun e => e.1))

/-- The coverage check errors exactly when the set of joints named by
rotation columns differs from the set of joints with children. -/
theorem rotation_coverage_iff (nodes : Nodes) (rotCols : List String)
    (hkeys : (nodes.map (fun e => e.1)).Nodup) :
    isErr (rotationCoverageCheck nodes rotCols) = true ↔
      ¬ (∀ s, colCovers rotCols s ↔ hasChildJoint nodes s) := by
  unfold rotationCoverageCheck
  have hmain : df_to_joints rotCols = nonLeafSorted nodes ↔
      (∀ s, colCovers rotCols s ↔ hasChildJoint nodes s) := by
    unfold df_to_joints nonLeafSorted
    rw [pySorted_eq_iff (List.nodup_dedup _) (nonLeafSorted_base_nodup nodes hkeys)]
    constructor
    · intro h s
      rw [← mem_df_to_joints, ← mem_nonLeafSorted]
      unfold df_to_joints nonLeafSorted
      rw [mem_pySorted, mem_pySorted]
      exact h s
    · intro h s
      have := h s
      rw [← mem_df_to_joints, ← mem_nonLeafSorted] at this
      unfold df_to_joints nonLeafSorted at this
      rw [mem_pySorted, mem_pySorted] at this
      exact this
  by_cases h : df_to_joints rotCols = nonLeafSorted nodes
  · rw [if_neg (by simpa using h)]
    simp only [isErr]
    constructor
    · intro hcontra
      exact absurd hcontra (by simp)
    · intro hcontra
      exact absurd (hmain.mp h) hcontra
  · rw [if_pos (by simpa using h)]
    simp only [isErr]
    exact iff_of_true trivial (fun hcontra => h (hmain.mpr hcontra))

/-- The hierarchy of the C8 counterexample: a root `A` with one child
`B` (so `B` is childless), with the children lists as
`_update_children` fills them. -/
def exCov : Nodes :=
  [("A", ⟨"", ⟨0, 0, 0⟩, ["B"], []⟩), ("B", ⟨"A", ⟨0, 0, 0⟩, [], []⟩)]

/-- C8 counterexample: a rotation table covering `A` (the only joint
with children) and additionally the childless `B` triggers the
missing-rotation-data error even though every joint with children has
matching columns — the check compares sorted name lists, so extra
joints also fail it. -/
theorem rotation_coverage_counterexample :
    isErr (rotationCoverageCheck exCov ["time", "A.x", "B.x"]) = true ∧
      (∀ e ∈ exCov, e.2.children ≠ [] →
        colCovers ["time", "A.x", "B.x"] e.1) := by
  constructor
  · decide
  · decide

/-- C8 (amended): the conversion's coverage check fails iff the set of
joints named by rotation-table columns differs from the set of joints
with children — either some joint with children has no columns, or
some column names a joint without children (or absent from the
hierarchy); a table covering exactly the joints with children passes.
Childless joints are untouched by `_update_channels` (no channels
assigned) and are rendered as `End Site` blocks by the composer. -/
theorem rotation_coverage_check_and_end_sites :
    (∀ (nodes : Nodes) (rotCols : List String), (nodes.map (fun e => e.1)).Nodup →
      (isErr (rotationCoverageCheck nodes rotCols) = true ↔
        ¬ (∀ s, colCovers rotCols s ↔ hasChildJoint nodes s))) ∧
    (∀ (nodes : Nodes) (rootPos : List String) (rotCh : List (String × List String))
        (i : Nat) (e : String × NodeProps),
      nodes.get? i = some e → e.2.children = [] →
      (_update_channels nodes rootPos rotCh).get? i = some e) ∧
    (∀ (d : Nat) (name : String) (p : NodeProps), p.parent ≠ "" → p.children = [] →
      (jointLines d name p).head? = some (sp d ++ "End Site")) := by
  refine ⟨rotation_coverage_iff, ?_, ?_⟩
  · intro nodes rootPos rotCh i e hget hch
    unfold _update_channels
    rw [List.get?_map, hget]
    simp [hch]
  · intro d name p hpar hch
    rw [jointLines_eq]
    simp [hpar, hch]

/-! ## Claim C9: the recursive and the stack-based exporters -/

theorem goRecEnd_eq_flatMap (scale : ℚ) (nframes : Nat) (endSites : Bool)
    (pw : Option (List Aff)) (l : List JTree) :
    goRecEnd scale nframes endSites pw l =
      ((l.find? JTree.isEnd).toList).flatMap (goRec scale nframes endSites pw) := by
  induction l with
  | nil => rw [goRecEnd]; rfl
  | cons c cs ih =>
      rw [goRecEnd]
      by_cases h : c.isEnd
      · rw [if_pos h, List.find?_cons_of_pos _ h]
        simp
      · rw [if_neg h, List.find?_cons_of_neg _ h, ih]

theorem goRecJoints_eq_flatMap (scale : ℚ) (nframes : Nat) (endSites : Bool)
    (pw : Option (List Aff)) (l : List JTree) :
    goRecJoints scale nframes endSites pw l =
      (l.filter (fun c => ! c.isEnd)).flatMap (goRec scale nframes endSites pw) := by
  induction l with
  | nil => rw [goRecJoints]; rfl
  | cons c cs ih =>
      rw [goRecJoints]
      by_cases h : c.isEnd
      · rw [if_pos h, ih]
        simp [List.filter, h]
      · rw [if_neg h, ih]
        simp [List.filter, h]

theorem stackSize_append (a b : JStack) : stackSize (a ++ b) = stackSize a + stackSize b := by
  simp [stackSize, sizeL_append]

theorem flatMap_stack_pairs (scale : ℚ) (nframes : Nat) (endSites : Bool)
    (x : Option (List Aff)) (l : List JTree) :
    ((l.map (fun c => (c, x))).flatMap (fun e => goRec scale nframes endSites e.2 e.1)) =
      l.flatMap (goRec scale nframes endSites x) := by
  induction l with
  | nil => rfl
  | cons c cs ih => simp only [List.map_cons, List.flatMap_cons, ih]

theorem stackSize_map_pair (l : List JTree) (x : Option (List Aff)) :
    stackSize (l.map (fun c => (c, x))) = sizeL l := by
  unfold stackSize
  rw [List.map_map]
  exact sizeL_map_comp x l

/-- The stack-based loop visits, in some order, exactly the visits of
the recursive walk applied to every stack entry. -/
theorem goIter_perm (scale : ℚ) (nframes : Nat) (endSites : Bool) :
    ∀ (n : Nat) (st : JStack), stackSize st ≤ n →
      (goIter scale nframes endSites st).Perm
        (st.flatMap (fun e => goRec scale nframes endSites e.2 e.1)) := by
  intro n
  induction n with
  | zero =>
      intro st hle
      cases st with
      | nil => simp [goIter]
      | cons top rest =>
          exfalso
          have h1 := sizeT_pos top.1
          have : stackSize (top :: rest) = sizeT top.1 + stackSize rest := by
            unfold stackSize
            simp [sizeL]
          omega
  | succ k ih =>
      intro st hle
      cases st with
      | nil => simp [goIter]
      | cons top rest =>
          obtain ⟨j, pw⟩ := top
          rw [goIter]
          have hpush := pushBlock_lt endSites j
          have hsz : stackSize ((((if endSites then (j.children.find? JTree.isEnd).toList
              else []) ++ j.children.filter (fun c => ! c.isEnd)).reverse.map
                (fun c => (c, some (nodeWT scale nframes pw j)))) ++ rest) ≤ k := by
            rw [stackSize_append, stackSize_map_pair, sizeL_reverse]
            have hst : stackSize ((j, pw) :: rest) = sizeT j + stackSize rest := by
              unfold stackSize
              simp [sizeL]
            omega
          have hrec := ih _ hsz
          refine List.Perm.trans (List.Perm.cons _ hrec) ?_
          simp only [List.flatMap_cons]
          rw [goRec]
          simp only [List.cons_append]
          refine List.Perm.cons _ ?_
          rw [List.flatMap_append, flatMap_stack_pairs]
          rw [goRecEnd_eq_flatMap, goRecJoints_eq_flatMap]
          refine List.Perm.append ?_ (List.Perm.refl _)
          have hrev : List.Perm
              ((((if endSites then (j.children.find? JTree.isEnd).toList else []) ++
                j.children.filter (fun c => ! c.isEnd)).reverse).flatMap
                  (goRec scale nframes endSites (some (nodeWT scale nframes pw j))))
              ((((if endSites then (j.children.find? JTree.isEnd).toList else []) ++
                j.children.filter (fun c => ! c.isEnd))).flatMap
                  (goRec scale nframes endSites (some (nodeWT scale nframes pw j)))) :=
            List.Perm.flatMap_right _ (List.reverse_perm _)
          refine hrev.trans ?_
          rw [List.flatMap_append]
          by_cases he : endSites
          · rw [if_pos he, if_pos he]
          · rw [if_neg he, if_neg he]
            simp

/-- C9 (amended): for every tree and every setting of scale and
end_sites, the stack-based exporter's output is a permutation of the
recursive exporter's output — the same per-joint columns with
identical per-frame values, in a different order (the stack serves
joint children in reverse and the end site after them). -/
theorem iterative_export_perm_recursive :
    ∀ (scale : ℚ) (nframes : Nat) (endSites : Bool) (root : JTree),
      (posExportIter scale nframes endSites root).Perm
        (posExportRec scale nframes endSites root) := by
  intro scale nframes endSites root
  unfold posExportIter posExportRec
  have h := goIter_perm scale nframes endSites (stackSize [(root, none)]) [(root, none)]
    (Nat.le_refl _)
  simpa using h

/-- The two-child tree of the C9 counterexample. -/
def exOrdA : JTree := .mk "A" false ⟨0, 0, 0⟩ [M3.id] [⟨0, 0, 0⟩] []

def exOrdB : JTree := .mk "B" false ⟨0, 0, 0⟩ [M3.id] [⟨0, 0, 0⟩] []

def exOrdRoot : JTree := .mk "R" false ⟨0, 0, 0⟩ [M3.id] [⟨0, 0, 0⟩] [exOrdA, exOrdB]

/-- C9 counterexample: on a root with two children the recursive
exporter writes columns R, A, B while the stack-based exporter pops the
children in reverse order and writes R, B, A — the headers (and hence
the tables) differ. -/
theorem iterative_header_differs :
    headerOf (posExportRec 1 1 false exOrdRoot) =
      ["time", "R.x", "R.y", "R.z", "A.x", "A.y", "A.z", "B.x", "B.y", "B.z"] ∧
    headerOf (posExportIter 1 1 false exOrdRoot) =
      ["time", "R.x", "R.y", "R.z", "B.x", "B.y", "B.z", "A.x", "A.y", "A.z"] ∧
    headerOf (posExportIter 1 1 false exOrdRoot) ≠
      headerOf (posExportRec 1 1 false exOrdRoot) := by
  have h1 : headerOf (posExportRec 1 1 false exOrdRoot) =
      ["time", "R.x", "R.y", "R.z", "A.x", "A.y", "A.z", "B.x", "B.y", "B.z"] := by
    unfold posExportRec exOrdRoot exOrdA exOrdB
    rw [goRec]
    simp only [JTree.children, JTree.isEnd, JTree.name, Bool.false_eq_true, if_false]
    rw [goRecJoints, goRecJoints, goRecJoints]
    simp only [JTree.isEnd, Bool.false_eq_true, if_false]
    rw [goRec, goRec]
    simp only [JTree.children, JTree.isEnd, JTree.name, Bool.false_eq_true, if_false]
    rw [goRecJoints, goRecJoints]
    simp [headerOf, visitEntry, JTree.name, goRecEnd]
  have h2 : headerOf (posExportIter 1 1 false exOrdRoot) =
      ["time", "R.x", "R.y", "R.z", "B.x", "B.y", "B.z", "A.x", "A.y", "A.z"] := by
    unfold posExportIter exOrdRoot exOrdA exOrdB
    simp [goIter.eq_def, headerOf, visitEntry, JTree.children, JTree.isEnd, JTree.name]
  refine ⟨h1, h2, ?_⟩
  rw [h1, h2]
  decide

/-! ## Claim C5: the CSV round trip

`write_joint_hierarchy`, `write_joint_rotations` and the position
writer produce the three tables; `csv2bvh_string` rebuilds the joint
dictionary, frame count and frame time from them.  The round trip is
examined on the flattened joint list (one `MJoint` per node, End Sites
included, in pre-order) that `bvh_tree.get_joints(end_sites=True)`
yields for a well-formed BVH file. -/

/-- The three rotation-channel tokens a BVH `CHANNELS` line may carry. -/
def rotSet : List String := ["Xrotation", "Yrotation", "Zrotation"]

/-- A nonempty channel list consisting of rotation tokens only. -/
def rotsOnly (l : List String) : Prop := l ≠ [] ∧ ∀ ch ∈ l, ch ∈ rotSet

instance (l : List String) : Decidable (rotsOnly l) := by
  unfold rotsOnly; infer_instance

/-- The joint named `s` has at least one child in the flattened list. -/
def hasChildM (m : List MJoint) (s : String) : Bool :=
  m.any (fun x => x.parent = s)

/-- The names of the children of the joint named `s`, in list order —
the order in which `_update_children` appends them. -/
def childrenOfM (m : List MJoint) (s : String) : List String :=
  (m.filter (fun x => x.parent = s)).map (fun x => x.name)

/-- A joint name that survives the pipeline unchanged: nonempty (the
empty string is the no-parent marker), not the reserved column `time`,
at most 20 characters (the hierarchy table's field width) and dot-free
(the column parser splits on the first dot). -/
def goodName (s : String) : Prop :=
  s ≠ "" ∧ s ≠ "time" ∧ s.data.length ≤ 20 ∧ '.' ∉ s.data

instance (s : String) : Decidable (goodName s) := by
  unfold goodName; infer_instance

/-- Pre-order well-formedness of the flattened list: every joint's
parent name occurs among the names already seen. -/
def parentsEarlier (seen : List String) : List MJoint → Bool
  | [] => true
  | j :: rest => decide (j.parent ∈ seen) && parentsEarlier (seen ++ [j.name]) rest

/-- A flattened joint list as `get_joints(end_sites=True)` yields it
for a well-formed BVH hierarchy: the head is the single root (empty
parent, position plus rotation channels), names are distinct pipeline-safe
identifiers, parents precede their children, exactly the childless
nodes are End Sites (channel-less), and every other joint carries a
nonempty rotation-only channel list. -/
def ValidModel (r : MJoint) (tl : List MJoint) : Prop :=
  r.parent = "" ∧ r.isEnd = false ∧
  ((r :: tl).map (fun j => j.name)).Nodup ∧
  (∀ j ∈ r :: tl, goodName j.name) ∧
  parentsEarlier [r.name] tl = true ∧
  (∀ j ∈ r :: tl, j.isEnd = ! hasChildM (r :: tl) j.name) ∧
  r.channels.take 3 = ["Xposition", "Yposition", "Zposition"] ∧
  rotsOnly (r.channels.drop 3) ∧
  (∀ j ∈ tl, (j.isEnd = true → j.channels = []) ∧ (j.isEnd = false → rotsOnly j.channels))

instance (r : MJoint) (tl : List MJoint) : Decidable (ValidModel r tl) := by
  unfold ValidModel; infer_instance

/-- The joint dictionary `csv2bvh_string` should rebuild from the
exported tables: same names in the same order, same parents, offsets
rounded to the table's 5-decimal precision, the children each joint
has in the flattened list, and the original channel lists. -/
def expectedNodes (m : List MJoint) : Nodes :=
  m.map (fun j => (j.name, ⟨j.parent, V3.round5 j.offset, childrenOfM m j.name, j.channels⟩))

theorem takeWhile_all_stop (p : Char → Bool) (xs : List Char) (y : Char) (ys : List Char)
    (hall : ∀ x ∈ xs, p x = true) (hy : p y = false) :
    (xs ++ y :: ys).takeWhile p = xs := by
  induction xs with
  | nil => simp [List.takeWhile_cons, hy]
  | cons a as ih =>
      have ha := hall a (by simp)
      simp only [List.cons_append, List.takeWhile_cons, ha, if_true]
      rw [ih (fun x hx => hall x (by simp [hx]))]

theorem dropWhile_all_stop (p : Char → Bool) (xs : List Char) (y : Char) (ys : List Char)
    (hall : ∀ x ∈ xs, p x = true) (hy : p y = false) :
    (xs ++ y :: ys).dropWhile p = y :: ys := by
  induction xs with
  | nil => simp [List.dropWhile_cons, hy]
  | cons a as ih =>
      have ha := hall a (by simp)
      simp only [List.cons_append, List.dropWhile_cons, ha, if_true]
      exact ih (fun x hx => hall x (by simp [hx]))

theorem takeWhile_all (p : Char → Bool) (xs : List Char)
    (hall : ∀ x ∈ xs, p x = true) : xs.takeWhile p = xs := by
  induction xs with
  | nil => rfl
  | cons a as ih =>
      have ha := hall a (by simp)
      simp only [List.takeWhile_cons, ha, if_true]
      rw [ih (fun x hx => hall x (by simp [hx]))]

theorem dotted_data (a ax : String) :
    (a ++ "." ++ ax).data = a.data ++ '.' :: ax.data := by
  simp [String.data_append]

/-- `colJoint` recovers the joint name from a `name.axis` column when
the name is dot-free. -/
theorem colJoint_dotted (a ax : String) (ha : '.' ∉ a.data) :
    colJoint (a ++ "." ++ ax) = a := by
  unfold colJoint
  rw [dotted_data, takeWhile_all_stop]
  · intro x hx
    simp only [decide_eq_true_eq]
    exact fun h => ha (h ▸ hx)
  · simp

/-- `colAxis` recovers the axis from a `name.axis` column when both
parts are dot-free. -/
theorem colAxis_dotted (a ax : String) (ha : '.' ∉ a.data) (hax : '.' ∉ ax.data) :
    colAxis (a ++ "." ++ ax) = some ax := by
  unfold colAxis
  rw [dotted_data, dropWhile_all_stop]
  · show some (String.mk (ax.data.takeWhile (fun ch => decide (ch ≠ '.')))) = some ax
    rw [takeWhile_all]
    intro x hx
    simp only [decide_eq_true_eq]
    exact fun h => hax (h ▸ hx)
  · intro x hx
    simp only [decide_eq_true_eq]
    exact fun h => ha (h ▸ hx)
  · simp

theorem hasKey_append (a b : Nodes) (k : String) :
    hasKey (a ++ b) k = (hasKey a k || hasKey b k) := by
  simp [hasKey, List.any_append]

theorem dictFold_fresh (rows : List (String × NodeProps)) :
    ∀ acc : Nodes, (∀ e ∈ rows, hasKey acc e.1 = false) →
      (rows.map (fun e => e.1)).Nodup →
      rows.foldl (fun m e => dictInsert m e.1 e.2) acc = acc ++ rows := by
  induction rows with
  | nil => intro acc _ _; simp
  | cons e rest ih =>
      intro acc hfresh hnodup
      have he : hasKey acc e.1 = false := hfresh e (by simp)
      have hhd : e.1 ∉ rest.map (fun x => x.1) := (List.nodup_cons.mp hnodup).1
      simp only [List.foldl_cons]
      rw [show dictInsert acc e.1 e.2 = acc ++ [e] from by simp [dictInsert, he]]
      rw [ih (acc ++ [e]) ?fresh ?nd]
      · simp
      case fresh =>
        intro x hx
        rw [hasKey_append]
        have h1 : hasKey acc x.1 = false := hfresh x (by simp [hx])
        have h2 : hasKey [e] x.1 = false := by
          simp only [hasKey, List.any_cons, List.any_nil, Bool.or_false, decide_eq_false_iff_not]
          intro hcontra
          exact hhd (by rw [hcontra]; exact List.mem_map_of_mem _ hx)
        rw [h1, h2]
        rfl
      case nd => exact (List.nodup_cons.mp hnodup).2

/-- Building the joint dictionary from rows with distinct keys keeps
the rows unchanged, in order. -/
theorem dictOfRows_nodup (rows : List (String × NodeProps))
    (h : (rows.map (fun e => e.1)).Nodup) : dictOfRows rows = rows := by
  unfold dictOfRows
  rw [dictFold_fresh rows [] (fun e _ => rfl) h]
  rfl

theorem find?_isSome_any {α : Type} (p : α → Bool) (l : List α) :
    (l.find? p).isSome = l.any p := by
  induction l with
  | nil => rfl
  | cons a as ih =>
      cases hpa : p a
      · simp [List.find?_cons, hpa, ih]
      · simp [List.find?_cons, hpa]

theorem hasKey_eq_keys_any (l : Nodes) (k : String) :
    hasKey l k = (l.map (fun e => e.1)).any (fun s => s = k) := by
  induction l with
  | nil => rfl
  | cons e rest ih =>
      simp only [hasKey, List.any_cons, List.map_cons] at ih ⊢
      rw [ih]

theorem appendChild_keys (nodes : Nodes) (p c : String) :
    (appendChild nodes p c).map (fun e => e.1) = nodes.map (fun e => e.1) := by
  unfold appendChild
  rw [List.map_map]
  apply List.map_congr_left
  intro e _
  by_cases h : e.1 = p <;> simp [h]

theorem lookupN_isSome (l : Nodes) (k : String) :
    (lookupN l k).isSome = hasKey l k := by
  unfold lookupN hasKey
  rw [← find?_isSome_any]
  cases List.find? (fun e => decide (e.1 = k)) l <;> rfl

/-- The pure step of `_update_children`, taken when the lookup of the
parent does not raise. -/
def updStep (a : Nodes) (e : String × NodeProps) : Nodes :=
  if e.2.parent = "" then a else appendChild a e.2.parent e.1

theorem updStep_keys (acc : Nodes) (e : String × NodeProps) :
    (updStep acc e).map (fun x => x.1) = acc.map (fun x => x.1) := by
  unfold updStep
  by_cases h : e.2.parent = ""
  · rw [if_pos h]
  · rw [if_neg h, appendChild_keys]

theorem hasKey_updStep (acc : Nodes) (e : String × NodeProps) (k : String) :
    hasKey (updStep acc e) k = hasKey acc k := by
  rw [hasKey_eq_keys_any, hasKey_eq_keys_any, updStep_keys]

theorem updateChildrenF_loop (suf : List (String × NodeProps)) :
    ∀ acc : Nodes,
      (∀ e ∈ suf, if e.2.parent = "" then hasKey acc e.2.parent = false
        else hasKey acc e.2.parent = true) →
      List.foldlM
        (fun acc e =>
          match lookupN acc e.2.parent with
          | some _ => Except.ok (appendChild acc e.2.parent e.1)
          | none =>
              if e.2.parent = "" then Except.ok acc
              else Except.error (PyErr.valueError ("ERROR: Parent of " ++ e.1 ++ " cannot be found in the hierarchy definition!")))
        acc suf = Except.ok (List.foldl updStep acc suf) := by
  induction suf with
  | nil => intro acc _; rfl
  | cons e rest ih =>
      intro acc h
      have he := h e (by simp)
      rw [List.foldlM_cons, List.foldl_cons]
      by_cases hp : e.2.parent = ""
      · rw [if_pos hp] at he
        have hnone : lookupN acc e.2.parent = none := by
          have := lookupN_isSome acc e.2.parent
          rw [he] at this
          exact Option.not_isSome_iff_eq_none.mp (by simp [this])
        rw [hnone]
        have hstep : updStep acc e = acc := by simp [updStep, hp]
        rw [if_pos hp, hstep]
        have hbind : ∀ (x : Except PyErr Nodes), (Except.ok acc >>= fun b => List.foldlM _ b rest) = List.foldlM
          (fun acc e =>
            match lookupN acc e.2.parent with
            | some _ => Except.ok (appendChild acc e.2.parent e.1)
            | none =>
                if e.2.parent = "" then Except.ok acc
                else Except.error (PyErr.valueError ("ERROR: Parent of " ++ e.1 ++ " cannot be found in the hierarchy definition!")))
          acc rest := fun _ => rfl
        rw [hbind (Except.ok acc)]
        apply ih
        intro x hx
        have := h x (List.mem_cons_of_mem _ hx)
        rwa [← hstep, hasKey_updStep] at this
      · rw [if_neg hp] at he
        obtain ⟨v, hv⟩ := Option.isSome_iff_exists.mp (by rw [lookupN_isSome, he])
        rw [hv]
        have hstep : updStep acc e = appendChild acc e.2.parent e.1 := by simp [updStep, hp]
        rw [← hstep]
        have hbind : (Except.ok (updStep acc e) >>= fun b => List.foldlM _ b rest) = List.foldlM
          (fun acc e =>
            match lookupN acc e.2.parent with
            | some _ => Except.ok (appendChild acc e.2.parent e.1)
            | none =>
                if e.2.parent = "" then Except.ok acc
                else Except.error (PyErr.valueError ("ERROR: Parent of " ++ e.1 ++ " cannot be found in the hierarchy definition!")))
          (updStep acc e) rest := rfl
        rw [hbind]
        apply ih
        intro x hx
        have := h x (List.mem_cons_of_mem _ hx)
        by_cases hxp : x.2.parent = "" <;>
          simp only [hxp, if_true, if_false, reduceIte] at this ⊢ <;>
          rwa [hasKey_updStep]

theorem updFold_children (suf : List (String × NodeProps)) :
    ∀ acc : Nodes, (∀ e ∈ acc, e.1 ≠ "") →
      List.foldl updStep acc suf =
        acc.map (fun e => (e.1, { e.2 with children := e.2.children ++
          ((suf.filter (fun x => x.2.parent = e.1)).map (fun x => x.1)) })) := by
  induction suf with
  | nil =>
      intro acc _
      simp only [List.foldl_nil, List.filter_nil, List.map_nil, List.append_nil]
      symm
      apply List.map_id''
      intro e
      rfl
  | cons x rest ih =>
      intro acc hne
      rw [List.foldl_cons]
      by_cases hp : x.2.parent = ""
      · rw [show updStep acc x = acc from by simp [updStep, hp]]
        rw [ih acc hne]
        apply List.map_congr_left
        intro e hee
        have hno : ¬ (x.2.parent = e.1) := by
          rw [hp]
          exact fun hcontra => hne e hee hcontra.symm
        rw [List.filter_cons]
        simp only [decide_eq_true_eq]
        rw [if_neg hno]
      · rw [show updStep acc x = appendChild acc x.2.parent x.1 from by simp [updStep, hp]]
        have hne2 : ∀ e ∈ appendChild acc x.2.parent x.1, e.1 ≠ "" := by
          intro e he
          unfold appendChild at he
          rw [List.mem_map] at he
          obtain ⟨o, ho, hoe⟩ := he
          by_cases hop : o.1 = x.2.parent
          · rw [if_pos hop] at hoe
            rw [← hoe]
            exact hne o ho
          · rw [if_neg hop] at hoe
            rw [← hoe]
            exact hne o ho
        rw [ih _ hne2]
        unfold appendChild
        rw [List.map_map]
        apply List.map_congr_left
        intro e hee
        rw [List.filter_cons]
        simp only [Function.comp_apply, decide_eq_true_eq]
        by_cases heq : e.1 = x.2.parent
        · rw [if_pos heq, if_pos heq.symm]
          simp [List.append_assoc]
        · rw [if_neg heq, if_neg (fun hcontra => heq hcontra.symm)]

/-- `_update_children` succeeds on a map with nonempty distinct keys
whose nonempty parents are all keys, and fills each joint's `children`
with the names of the joints naming it as parent, in map order. -/
theorem updateChildrenF_ok (nodes : Nodes)
    (hne : ∀ e ∈ nodes, e.1 ≠ "")
    (hpar : ∀ e ∈ nodes, e.2.parent = "" ∨ hasKey nodes e.2.parent = true) :
    updateChildrenF nodes = .ok (nodes.map (fun e =>
      (e.1, { e.2 with children := e.2.children ++
        ((nodes.filter (fun x => x.2.parent = e.1)).map (fun x => x.1)) }))) := by
  have hkey0 : hasKey nodes "" = false := by
    rw [hasKey]
    rw [List.any_eq_false]
    intro e he
    simp only [decide_eq_true_eq]
    exact hne e he
  unfold updateChildrenF
  rw [updateChildrenF_loop nodes nodes ?hyp]
  · rw [updFold_children nodes nodes hne]
  case hyp =>
    intro e he
    by_cases hp : e.2.parent = ""
    · rw [if_pos hp, hp]
      exact hkey0
    · rw [if_neg hp]
      rcases hpar e he with h | h
      · exact absurd h hp
      · exact h

theorem hasKey_iff_mem (l : Nodes) (k : String) :
    hasKey l k = true ↔ k ∈ l.map (fun e => e.1) := by
  rw [hasKey_eq_keys_any, List.any_eq_true]
  simp

theorem parentsEarlier_get (tl : List MJoint) :
    ∀ (seen : List String), parentsEarlier seen tl = true →
      ∀ (k : Nat) (x : MJoint), tl.get? k = some x →
        x.parent ∈ seen ++ (tl.take k).map (fun j => j.name) := by
  induction tl with
  | nil => intro seen _ k x hk; simp at hk
  | cons j rest ih =>
      intro seen hpe k x hk
      simp only [parentsEarlier, Bool.and_eq_true, decide_eq_true_eq] at hpe
      obtain ⟨hj, hrest⟩ := hpe
      match k with
      | 0 =>
          simp only [List.get?] at hk
          cases hk
          simpa using hj
      | k' + 1 =>
          have := ih (seen ++ [j.name]) hrest k' x (by simpa using hk)
          rw [List.take_succ_cons, List.map_cons]
          simpa [List.append_assoc] using this
  termination_by tl => tl.length

theorem parentsEarlier_mem (tl : List MJoint) :
    ∀ (seen : List String), parentsEarlier seen tl = true →
      ∀ j ∈ tl, j.parent ∈ seen ++ tl.map (fun x => x.name) := by
  induction tl with
  | nil => intro seen _ j hj; simp at hj
  | cons x rest ih =>
      intro seen hpe j hj
      simp only [parentsEarlier, Bool.and_eq_true, decide_eq_true_eq] at hpe
      obtain ⟨hx, hrest⟩ := hpe
      rcases List.mem_cons.mp hj with h | h
      · subst h
        simp only [List.map_cons]
        exact List.mem_append_left _ hx
      · have := ih (seen ++ [x.name]) hrest j h
        simpa [List.append_assoc] using this

theorem parent_mem_take (r : MJoint) (tl : List MJoint)
    (hpe : parentsEarlier [r.name] tl = true) (k : Nat) (x : MJoint)
    (hk : tl.get? k = some x) :
    x.parent ∈ ((r :: tl).take (k + 1)).map (fun j => j.name) := by
  have := parentsEarlier_get tl [r.name] hpe k x hk
  rw [List.take_succ_cons, List.map_cons]
  simpa using this

theorem mem_take_map_name (m : List MJoint) (k : Nat) (s : String)
    (h : s ∈ (m.take k).map (fun j => j.name)) :
    ∃ i x, i < k ∧ m.get? i = some x ∧ x.name = s := by
  rw [List.mem_map] at h
  obtain ⟨x, hx, hname⟩ := h
  obtain ⟨i, hi⟩ := List.mem_iff_get?.mp hx
  have htake : (m.take k).get? i = if i < k then m.get? i else none := List.get?_take_eq_if
  by_cases hik : i < k
  · rw [if_pos hik] at htake
    exact ⟨i, x, hik, by rw [← htake, hi], hname⟩
  · rw [if_neg hik, hi] at htake
    exact absurd htake (by simp)

theorem name_index_unique (m : List MJoint) (hnd : (m.map (fun j => j.name)).Nodup)
    (i k : Nat) (x y : MJoint) (hx : m.get? i = some x) (hy : m.get? k = some y)
    (hn : x.name = y.name) : i = k := by
  have h1 : (m.map (fun j => j.name)).get? i = some x.name := by
    rw [List.get?_map, hx]
    rfl
  have h2 : (m.map (fun j => j.name)).get? k = some y.name := by
    rw [List.get?_map, hy]
    rfl
  have hlen : i < (m.map (fun j => j.name)).length :=
    (List.get?_eq_some.mp h1).1
  exact List.get?_inj hlen hnd (by rw [h1, h2, hn])

/-- Within a pre-ordered, distinctly-named list, every non-head joint's
parent is the name of a strictly earlier joint. -/
theorem parent_strictly_earlier (r : MJoint) (tl : List MJoint)
    (hpe : parentsEarlier [r.name] tl = true)
    (i : Nat) (x : MJoint) (hx : (r :: tl).get? (i + 1) = some x) :
    ∃ k y, k < i + 1 ∧ (r :: tl).get? k = some y ∧ y.name = x.parent := by
  have hx' : tl.get? i = some x := by simpa using hx
  have hmem := parent_mem_take r tl hpe i x hx'
  obtain ⟨k, y, hk, hget, hname⟩ := mem_take_map_name (r :: tl) (i + 1) x.parent hmem
  exact ⟨k, y, hk, hget, hname⟩

/-- The joint dictionary that `get_hierarchy_data` rebuilds from the
exported hierarchy table: every joint keeps its name, parent and
5-decimal-rounded offset, the children are filled in list order and the
channels are still empty. -/
def midNodes (m : List MJoint) : Nodes :=
  m.map (fun j => (j.name, ⟨j.parent, V3.round5 j.offset, childrenOfM m j.name, []⟩))

theorem midNodes_keys (m : List MJoint) :
    (midNodes m).map (fun e => e.1) = m.map (fun j => j.name) := by
  unfold midNodes
  rw [List.map_map]
  rfl

theorem tl_parent_ne (r : MJoint) (tl : List MJoint)
    (hpe : parentsEarlier [r.name] tl = true)
    (hgood : ∀ j ∈ r :: tl, goodName j.name) :
    ∀ j ∈ tl, j.parent ≠ "" := by
  intro j hj
  have hmem := parentsEarlier_mem tl [r.name] hpe j hj
  have : j.parent ∈ (r :: tl).map (fun x => x.name) := by simpa using hmem
  rw [List.mem_map] at this
  obtain ⟨y, hy, hname⟩ := this
  rw [← hname]
  exact (hgood y hy).1

theorem midNodes_root_count (r : MJoint) (tl : List MJoint)
    (hr : r.parent = "")
    (hpe : parentsEarlier [r.name] tl = true)
    (hgood : ∀ j ∈ r :: tl, goodName j.name) :
    rootCountL (midNodes (r :: tl)) = 1 := by
  unfold rootCountL midNodes
  rw [List.map_filter]
  have hfil : (r :: tl).filter
      ((fun e => decide ((e : String × NodeProps).2.parent = "")) ∘
        (fun j => (j.name, ⟨j.parent, V3.round5 j.offset, childrenOfM (r :: tl) j.name, []⟩))) =
      [r] := by
    rw [List.filter_cons]
    simp only [Function.comp_apply, decide_eq_true_eq]
    rw [if_pos hr]
    rw [List.filter_eq_nil_iff.mpr]
    intro j hj
    simp only [Function.comp_apply, decide_eq_true_eq]
    exact tl_parent_ne r tl hpe hgood j hj
  rw [hfil]
  rfl

/-- No joint of a valid flattened list is flagged by the sanity check:
distinct names rule out self-parents, the pre-order rules out
parent/child cycles, and every nonempty parent is a key. -/
theorem midNodes_no_bad (r : MJoint) (tl : List MJoint)
    (hnd : ((r :: tl).map (fun j => j.name)).Nodup)
    (hpe : parentsEarlier [r.name] tl = true)
    (hgood : ∀ j ∈ r :: tl, goodName j.name) (hr : r.parent = "") :
    ∀ e ∈ midNodes (r :: tl), ¬ badNode (midNodes (r :: tl)) e := by
  intro e he
  unfold midNodes at he
  rw [List.mem_map] at he
  obtain ⟨x, hxmem, hxe⟩ := he
  obtain ⟨i, hi⟩ := List.mem_iff_get?.mp hxmem
  subst hxe
  unfold badNode
  push_neg
  refine ⟨?selfpar, ?cyc, ?keys⟩
  case selfpar =>
    simp only
    intro hcontra
    match i with
    | 0 =>
        have hxr : x = r := by symm; simpa using hi
        subst hxr
        rw [hr] at hcontra
        exact (hgood x hxmem).1 hcontra
    | i' + 1 =>
        obtain ⟨k, y, hk, hget, hname⟩ := parent_strictly_earlier r tl hpe i' x hi
        have : k = i' + 1 := name_index_unique (r :: tl) hnd k (i' + 1) y x hget hi
          (by rw [hname, ← hcontra])
        omega
  case cyc =>
    simp only
    intro hcontra
    unfold childrenOfM at hcontra
    rw [List.mem_map] at hcontra
    obtain ⟨c, hcfil, hcname⟩ := hcontra
    have hcmem := List.mem_of_mem_filter hcfil
    have hcpar : c.parent = x.name := by
      have := List.of_mem_filter hcfil
      simpa using this
    obtain ⟨j, hj⟩ := List.mem_iff_get?.mp hcmem
    match i with
    | 0 =>
        have hxr : x = r := by symm; simpa using hi
        subst hxr
        rw [hr] at hcname
        exact (hgood c hcmem).1 hcname
    | i' + 1 =>
        obtain ⟨k, y, hk, hget, hname⟩ := parent_strictly_earlier r tl hpe i' x hi
        have hkj : k = j := name_index_unique (r :: tl) hnd k j y c hget hj
          (by rw [hname, ← hcname])
        match j with
        | 0 =>
            have hcr : c = r := by symm; simpa using hj
            subst hcr
            rw [hr] at hcpar
            exact (hgood x hxmem).1 hcpar.symm
        | j' + 1 =>
            obtain ⟨k2, y2, hk2, hget2, hname2⟩ := parent_strictly_earlier r tl hpe j' c hj
            have hk2i : k2 = i' + 1 := name_index_unique (r :: tl) hnd k2 (i' + 1) y2 x hget2 hi
              (by rw [hname2, hcpar])
            omega
  case keys =>
    simp only
    intro hne
    rcases List.mem_cons.mp hxmem with hxr | hxtl
    · subst hxr
      exact absurd hr hne
    · have hmem := parentsEarlier_mem tl [r.name] hpe x hxtl
      have hmem2 : x.parent ∈ (r :: tl).map (fun j => j.name) := by simpa using hmem
      rw [hasKey_iff_mem, midNodes_keys]
      exact hmem2

theorem midNodes_sanity (r : MJoint) (tl : List MJoint)
    (hnd : ((r :: tl).map (fun j => j.name)).Nodup)
    (hpe : parentsEarlier [r.name] tl = true)
    (hgood : ∀ j ∈ r :: tl, goodName j.name) (hr : r.parent = "") :
    hierarchy_sanity_check (midNodes (r :: tl)) = .ok true := by
  unfold hierarchy_sanity_check
  apply sanityAux_ok
  intro hcon
  rw [sanityAux_iff] at hcon
  have hcount := midNodes_root_count r tl hr hpe hgood
  rcases hcon with h | h | h
  · rw [hcount] at h
    simp at h
  · obtain ⟨e, he, hbad⟩ := h
    exact midNodes_no_bad r tl hnd hpe hgood hr e he hbad
  · rw [hcount] at h
    simp at h

theorem trunc20_eq {s : String} (h : s.data.length ≤ 20) : trunc20 s = s :=
  string_eq_of_data (List.take_all_of_le h)

theorem smul_one_round (v : V3) :
    V3.smul 1 ⟨round5 (1 * v.x), round5 (1 * v.y), round5 (1 * v.z)⟩ = V3.round5 v := by
  simp [V3.smul, V3.round5, one_mul]

/-- Parsing the exported hierarchy table recovers every joint's name,
parent and rounded offset: all names fit the 20-character fields. -/
theorem base_rows_eq (r : MJoint) (tl : List MJoint)
    (hgood : ∀ j ∈ r :: tl, goodName j.name)
    (hr : r.parent = "")
    (hpe : parentsEarlier [r.name] tl = true) :
    (write_joint_hierarchy (r :: tl) 1).map (fun hrow =>
        (hrow.joint, (⟨hrow.parent, V3.smul 1 ⟨hrow.ox, hrow.oy, hrow.oz⟩, [], []⟩ : NodeProps))) =
      (r :: tl).map (fun j => (j.name, ⟨j.parent, V3.round5 j.offset, [], []⟩)) := by
  unfold write_joint_hierarchy
  rw [List.map_map]
  apply List.map_congr_left
  intro j hj
  show (trunc20 j.name,
      (⟨trunc20 j.parent,
        V3.smul 1 ⟨round5 (1 * j.offset.x), round5 (1 * j.offset.y), round5 (1 * j.offset.z)⟩,
        [], []⟩ : NodeProps)) =
    (j.name, ⟨j.parent, V3.round5 j.offset, [], []⟩)
  have h1 : trunc20 j.name = j.name := trunc20_eq (hgood j hj).2.2.1
  have h2 : trunc20 j.parent = j.parent := by
    rcases List.mem_cons.mp hj with h | h
    · rw [h, hr]
      rfl
    · have hmem := parentsEarlier_mem tl [r.name] hpe j h
      have hmem2 : j.parent ∈ (r :: tl).map (fun x => x.name) := by simpa using hmem
      rw [List.mem_map] at hmem2
      obtain ⟨y, hy, hname⟩ := hmem2
      rw [← hname]
      exact trunc20_eq (hgood y hy).2.2.1
  rw [h1, h2, smul_one_round]

theorem except_bind_ok {ε α β : Type} (a : α) (f : α → Except ε β) :
    (Except.ok a >>= f) = f a := rfl

theorem except_pure_bind {ε α β : Type} (a : α) (f : α → Except ε β) :
    ((pure a : Except ε α) >>= f) = f a := rfl

theorem get_hierarchy_data_eq (rows : List HRow) (scale : ℚ) (ji : Nodes)
    (h1 : updateChildrenF (dictOfRows (rows.map (fun r =>
        (r.joint, ⟨r.parent, V3.smul scale ⟨r.ox, r.oy, r.oz⟩, [], []⟩)))) = .ok ji)
    (h2 : hierarchy_sanity_check ji = .ok true) :
    get_hierarchy_data rows scale = .ok ji := by
  simp only [get_hierarchy_data]
  rw [h1, except_bind_ok, h2, except_bind_ok]
  rfl

/-- `_update_children` on the parsed hierarchy rows produces the joint
dictionary with children filled in list order. -/
theorem update_children_mid (r : MJoint) (tl : List MJoint)
    (hgood : ∀ j ∈ r :: tl, goodName j.name)
    (hr : r.parent = "")
    (hpe : parentsEarlier [r.name] tl = true) :
    updateChildrenF ((r :: tl).map (fun j =>
        (j.name, (⟨j.parent, V3.round5 j.offset, [], []⟩ : NodeProps)))) =
      .ok (midNodes (r :: tl)) := by
  have hkeys : ((r :: tl).map (fun j =>
      (j.name, (⟨j.parent, V3.round5 j.offset, [], []⟩ : NodeProps)))).map (fun e => e.1) =
      (r :: tl).map (fun j => j.name) := by
    rw [List.map_map]
    rfl
  rw [updateChildrenF_ok _ ?hne ?hpar]
  case hne =>
    intro e he
    rw [List.mem_map] at he
    obtain ⟨j, hj, hje⟩ := he
    rw [← hje]
    exact (hgood j hj).1
  case hpar =>
    intro e he
    rw [List.mem_map] at he
    obtain ⟨j, hj, hje⟩ := he
    rcases List.mem_cons.mp hj with h | h
    · left
      rw [← hje]
      show j.parent = ""
      rw [h, hr]
    · right
      rw [hasKey_iff_mem, hkeys, ← hje]
      have hmem := parentsEarlier_mem tl [r.name] hpe j h
      simpa using hmem
  · congr 1
    rw [List.map_map]
    apply List.map_congr_left
    intro j hj
    show (j.name,
        (⟨j.parent, V3.round5 j.offset,
          [] ++ (((r :: tl).map (fun j => (j.name, (⟨j.parent, V3.round5 j.offset, [], []⟩ : NodeProps)))).filter
            (fun x => x.2.parent = j.name)).map (fun x => x.1), []⟩ : NodeProps)) =
      (j.name, ⟨j.parent, V3.round5 j.offset, childrenOfM (r :: tl) j.name, []⟩)
    have hch : (((r :: tl).map (fun j => (j.name, (⟨j.parent, V3.round5 j.offset, [], []⟩ : NodeProps)))).filter
        (fun x => x.2.parent = j.name)).map (fun x => x.1) = childrenOfM (r :: tl) j.name := by
      rw [List.map_filter, List.map_map]
      rfl
    rw [List.nil_append, hch]

theorem rotSet_cases {ch : String} (h : ch ∈ rotSet) :
    ch = "Xrotation" ∨ ch = "Yrotation" ∨ ch = "Zrotation" := by
  simpa [rotSet] using h

theorem firstLower_rot_nodot {ch : String} (h : ch ∈ rotSet) :
    '.' ∉ (firstLower ch).data := by
  rcases rotSet_cases h with h | h | h <;> subst h <;> decide

theorem upper_firstLower_rot {ch : String} (h : ch ∈ rotSet) :
    pyUpper (firstLower ch) ++ "rotation" = ch := by
  rcases rotSet_cases h with h | h | h <;> subst h <;> rfl

theorem isRotCh_of_rotSet {ch : String} (h : ch ∈ rotSet) : isRotCh ch = true := by
  rcases rotSet_cases h with h | h | h <;> subst h <;> rfl

theorem filter_isRot_of_rots {l : List String} (h : ∀ ch ∈ l, ch ∈ rotSet) :
    l.filter isRotCh = l :=
  List.filter_eq_self.mpr (fun ch hch => isRotCh_of_rotSet (h ch hch))

/-- The rotation channels of a valid root: exactly its channel list
behind the three position channels. -/
theorem rotChannelsOf_root (r : MJoint)
    (h3 : r.channels.take 3 = ["Xposition", "Yposition", "Zposition"])
    (hrots : ∀ ch ∈ r.channels.drop 3, ch ∈ rotSet) :
    rotChannelsOf r = r.channels.drop 3 := by
  unfold rotChannelsOf
  conv_lhs => rw [← List.take_append_drop 3 r.channels]
  rw [List.filter_append, h3, filter_isRot_of_rots hrots]
  rfl

/-- The rotation channels of a valid non-root joint: its full channel
list. -/
theorem rotChannelsOf_plain (j : MJoint) (hrots : ∀ ch ∈ j.channels, ch ∈ rotSet) :
    rotChannelsOf j = j.channels :=
  filter_isRot_of_rots hrots

theorem find?_name (m : List MJoint) (hnd : (m.map (fun j => j.name)).Nodup)
    (j0 : MJoint) (hj0 : j0 ∈ m) :
    m.find? (fun j => j.name = j0.name) = some j0 := by
  induction m with
  | nil => simp at hj0
  | cons x rest ih =>
      rw [List.map_cons, List.nodup_cons] at hnd
      rcases List.mem_cons.mp hj0 with h | h
      · subst h
        exact List.find?_cons_of_pos _ (by simp)
      · by_cases hx : x.name = j0.name
        · exact absurd (hx ▸ List.mem_map_of_mem (fun j => j.name) h) hnd.1
        · rw [List.find?_cons_of_neg _ (by simpa using hx)]
          exact ih hnd.2 h

theorem flatMap_single (l : List MJoint) (hnd : (l.map (fun j => j.name)).Nodup)
    (j0 : MJoint) (hj0 : j0 ∈ l) (g : MJoint → List String) :
    l.flatMap (fun j => if j.name = j0.name then g j else []) = g j0 := by
  induction l with
  | nil => simp at hj0
  | cons x rest ih =>
      rw [List.map_cons, List.nodup_cons] at hnd
      rw [List.flatMap_cons]
      rcases List.mem_cons.mp hj0 with h | h
      · subst h
        rw [if_pos rfl]
        have hrest : rest.flatMap (fun j => if j.name = j0.name then g j else []) = [] := by
          apply List.bind_eq_nil.mpr
          intro j hj
          rw [if_neg]
          intro hcontra
          exact hnd.1 (hcontra ▸ List.mem_map_of_mem (fun j => j.name) hj)
        rw [hrest, List.append_nil]
      · by_cases hx : x.name = j0.name
        · exact absurd (hx ▸ List.mem_map_of_mem (fun j => j.name) h) hnd.1
        · rw [if_neg hx, List.nil_append]
          exact ih hnd.2 h

theorem mapM_ok_of_each {α β : Type} (l : List α) (f : α → Except PyErr β) (g : α → β)
    (h : ∀ a ∈ l, f a = .ok (g a)) : l.mapM f = .ok (l.map g) := by
  induction l with
  | nil => rfl
  | cons a rest ih =>
      rw [List.mapM_cons, h a (by simp), ih (fun x hx => h x (by simp [hx]))]
      rfl

theorem lookup_map_pair (l : List String) (f : String → List String) (s : String)
    (h : s ∈ l) :
    ((l.map (fun x => (x, f x))).lookup s) = some (f s) := by
  induction l with
  | nil => simp at h
  | cons x rest ih =>
      rw [List.map_cons]
      by_cases hx : s = x
      · subst hx
        simp [List.lookup]
      · rcases List.mem_cons.mp h with h' | h'
        · exact absurd h' hx
        · simp only [List.lookup, beq_false_of_ne hx]
          exact ih h'

theorem colJoint_append_dot (a s : String) (rest : List Char) (ha : '.' ∉ a.data)
    (hs : s.data = '.' :: rest) : colJoint (a ++ s) = a := by
  unfold colJoint
  have hdata : (a ++ s).data = a.data ++ '.' :: rest := by
    rw [String.data_append, hs]
  rw [hdata, takeWhile_all_stop]
  · intro x hx
    simp only [decide_eq_true_eq]
    exact fun h => ha (h ▸ hx)
  · simp

theorem colAxis_append_dot (a s : String) (rest : List Char) (ha : '.' ∉ a.data)
    (hs : s.data = '.' :: rest) (hrest : '.' ∉ rest) :
    colAxis (a ++ s) = some (String.mk rest) := by
  unfold colAxis
  have hdata : (a ++ s).data = a.data ++ '.' :: rest := by
    rw [String.data_append, hs]
  rw [hdata, dropWhile_all_stop]
  · show some (String.mk (rest.takeWhile (fun ch => decide (ch ≠ '.')))) = some (String.mk rest)
    rw [takeWhile_all]
    intro x hx
    simp only [decide_eq_true_eq]
    exact fun h => hrest (h ▸ hx)
  · intro x hx
    simp only [decide_eq_true_eq]
    exact fun h => ha (h ▸ hx)
  · simp

theorem flatMap_congr_mem {α β : Type} (l : List α) (f g : α → List β)
    (h : ∀ a ∈ l, f a = g a) : l.flatMap f = l.flatMap g := by
  induction l with
  | nil => rfl
  | cons a rest ih =>
      rw [List.flatMap_cons, List.flatMap_cons, h a (by simp),
        ih (fun x hx => h x (by simp [hx]))]

/-- Filtering the position CSV's header (`headerOf` of the exporter's
visit list) for the root's columns yields exactly the root's three
coordinate columns, provided the root is visited first and every other
visited name is one of the tail joints' names. -/
theorem rootPosDf_header (r : MJoint) (tl : List MJoint)
    (hnd : ((r :: tl).map (fun j => j.name)).Nodup)
    (hgood : ∀ j ∈ r :: tl, goodName j.name)
    (out : List (String × List V3))
    (hhead : (out.map (fun e => e.1)).head? = some r.name)
    (htail : ∀ nm ∈ (out.map (fun e => e.1)).tail, nm ∈ tl.map (fun j => j.name)) :
    (headerOf out).filter (fun c => some (colJoint c) = some r.name) =
      [r.name ++ ".x", r.name ++ ".y", r.name ++ ".z"] := by
  have hgr := hgood r (by simp)
  have hrdot := hgr.2.2.2
  have hrx := colJoint_append_dot r.name ".x" ['x'] hrdot rfl
  have hry := colJoint_append_dot r.name ".y" ['y'] hrdot rfl
  have hrz := colJoint_append_dot r.name ".z" ['z'] hrdot rfl
  match out with
  | [] => simp at hhead
  | e0 :: rest =>
      have he0 : e0.1 = r.name := by simpa using hhead
      have hrest : ∀ nm ∈ rest.map (fun e => e.1), nm ∈ tl.map (fun j => j.name) := by
        simpa using htail
      unfold headerOf
      rw [List.filter_cons]
      have htime : ¬ (some (colJoint "time") = some r.name) := by
        intro hcon
        exact hgr.2.1 (by rw [← Option.some_inj.mp hcon]; rfl)
      simp only [decide_eq_true_eq]
      rw [if_neg htime, List.flatMap_cons, List.filter_append, he0]
      have hrootblock : List.filter (fun c => decide (some (colJoint c) = some r.name))
          [r.name ++ ".x", r.name ++ ".y", r.name ++ ".z"] =
          [r.name ++ ".x", r.name ++ ".y", r.name ++ ".z"] := by
        simp [List.filter_cons, hrx, hry, hrz]
      rw [hrootblock]
      have hrestnil : List.filter (fun c => decide (some (colJoint c) = some r.name))
          (rest.flatMap (fun e => [e.1 ++ ".x", e.1 ++ ".y", e.1 ++ ".z"])) = [] := by
        apply List.filter_eq_nil_iff.mpr
        intro c hc
        rw [List.mem_flatMap] at hc
        obtain ⟨e, he, hce⟩ := hc
        have hmem := hrest e.1 (List.mem_map_of_mem _ he)
        rw [List.mem_map] at hmem
        obtain ⟨j, hj, hjname⟩ := hmem
        have hjdot : '.' ∉ e.1.data := by
          rw [← hjname]
          exact (hgood j (List.mem_cons_of_mem _ hj)).2.2.2
        have hne : e.1 ≠ r.name := by
          intro hcontra
          have hnd2 : (r.name :: tl.map (fun j => j.name)).Nodup := by
            rw [List.map_cons] at hnd
            exact hnd
          exact (List.nodup_cons.mp hnd2).1
            (by rw [← hcontra, ← hjname]; exact List.mem_map_of_mem _ hj)
        have hcases : c = e.1 ++ ".x" ∨ c = e.1 ++ ".y" ∨ c = e.1 ++ ".z" := by
          simpa using hce
        simp only [decide_eq_true_eq]
        intro hcon
        have hcol : colJoint c = e.1 := by
          rcases hcases with h | h | h <;> subst h
          · exact colJoint_append_dot e.1 ".x" ['x'] hjdot rfl
          · exact colJoint_append_dot e.1 ".y" ['y'] hjdot rfl
          · exact colJoint_append_dot e.1 ".z" ['z'] hjdot rfl
        exact hne (by rw [← hcol]; exact Option.some_inj.mp hcon)
      rw [hrestnil, List.append_nil]

/-- Decoding the root's position columns yields the three position
channel names. -/
theorem rootPosChannels_eq (r : MJoint) (hdot : '.' ∉ r.name.data) :
    ([r.name ++ ".x", r.name ++ ".y", r.name ++ ".z"].mapM
        (fun c => (colAxis c).map (fun a => pyUpper a ++ "position"))) =
      some ["Xposition", "Yposition", "Zposition"] := by
  have hx := colAxis_append_dot r.name ".x" ['x'] hdot rfl (by decide)
  have hy := colAxis_append_dot r.name ".y" ['y'] hdot rfl (by decide)
  have hz := colAxis_append_dot r.name ".z" ['z'] hdot rfl (by decide)
  rw [List.mapM_cons, List.mapM_cons, List.mapM_cons, hx, hy, hz]
  rfl

theorem childrenOfM_ne_nil (m : List MJoint) (s : String) :
    childrenOfM m s ≠ [] ↔ hasChildM m s = true := by
  unfold childrenOfM hasChildM
  rw [Ne, List.map_eq_nil_iff, List.filter_eq_nil_iff, List.any_eq_true]
  constructor
  · intro h
    by_contra hcon
    exact h (fun a ha hpa => hcon ⟨a, ha, hpa⟩)
  · rintro ⟨x, hx, hpx⟩ hall
    exact hall x hx hpx

/-- The rotation channels of every valid non-End-Site joint: nonempty
and drawn from the three rotation tokens. -/
theorem channels_rotSet (r : MJoint) (tl : List MJoint)
    (hch1 : r.channels.take 3 = ["Xposition", "Yposition", "Zposition"])
    (hch2 : rotsOnly (r.channels.drop 3))
    (hch3 : ∀ j ∈ tl, (j.isEnd = true → j.channels = []) ∧ (j.isEnd = false → rotsOnly j.channels)) :
    ∀ j ∈ r :: tl, j.isEnd = false →
      (∀ ch ∈ rotChannelsOf j, ch ∈ rotSet) ∧ rotChannelsOf j ≠ [] := by
  intro j hj hend
  rcases List.mem_cons.mp hj with h | h
  · subst h
    rw [rotChannelsOf_root j hch1 hch2.2]
    exact ⟨hch2.2, hch2.1⟩
  · have hro := (hch3 j h).2 hend
    rw [rotChannelsOf_plain j hro.2]
    exact ⟨hro.2, hro.1⟩

/-- Every joint a rotation-header column names is a non-End-Site joint
of the list. -/
theorem covers_elim (r : MJoint) (tl : List MJoint)
    (hgood : ∀ j ∈ r :: tl, goodName j.name)
    (hrots : ∀ j ∈ r :: tl, j.isEnd = false → (∀ ch ∈ rotChannelsOf j, ch ∈ rotSet))
    (s : String) (h : colCovers (rotHeader (r :: tl)) s) :
    ∃ j0 ∈ r :: tl, j0.isEnd = false ∧ j0.name = s := by
  obtain ⟨c, hc, hct, hcj⟩ := h
  unfold rotHeader at hc
  rcases List.mem_cons.mp hc with h' | h'
  · exact absurd h' hct
  · rw [List.mem_flatMap] at h'
    obtain ⟨j, hjf, hcmem⟩ := h'
    have hjm := List.mem_of_mem_filter hjf
    have hjend : j.isEnd = false := by
      have := List.of_mem_filter hjf
      simpa using this
    rw [List.mem_map] at hcmem
    obtain ⟨ch, hch, hceq⟩ := hcmem
    have hcol : colJoint c = j.name := by
      rw [← hceq]
      exact colJoint_dotted j.name (firstLower ch)
        (hgood j hjm).2.2.2
    exact ⟨j, hjm, hjend, by rw [← hcj, hcol]⟩

/-- The rotation-table header covers exactly the joints that end up
with children in the rebuilt dictionary. -/
theorem coverage_holds (r : MJoint) (tl : List MJoint)
    (hnd : ((r :: tl).map (fun j => j.name)).Nodup)
    (hgood : ∀ j ∈ r :: tl, goodName j.name)
    (hend : ∀ j ∈ r :: tl, j.isEnd = ! hasChildM (r :: tl) j.name)
    (hrots : ∀ j ∈ r :: tl, j.isEnd = false →
      (∀ ch ∈ rotChannelsOf j, ch ∈ rotSet) ∧ rotChannelsOf j ≠ []) :
    ∀ s, colCovers (rotHeader (r :: tl)) s ↔ hasChildJoint (midNodes (r :: tl)) s := by
  intro s
  constructor
  · intro h
    obtain ⟨j0, hj0, hj0end, hj0name⟩ :=
      covers_elim r tl hgood (fun j hj he => (hrots j hj he).1) s h
    have hchild : hasChildM (r :: tl) j0.name = true := by
      have := hend j0 hj0
      rw [hj0end] at this
      cases hcm : hasChildM (r :: tl) j0.name
      · rw [hcm] at this
        simp at this
      · rfl
    refine ⟨(j0.name, (⟨j0.parent, V3.round5 j0.offset, childrenOfM (r :: tl) j0.name,
      []⟩ : NodeProps)), ?_, ?_, hj0name⟩
    · unfold midNodes
      exact List.mem_map_of_mem _ hj0
    · show childrenOfM (r :: tl) j0.name ≠ []
      exact (childrenOfM_ne_nil (r :: tl) j0.name).mpr hchild
  · rintro ⟨e, he, hech, hename⟩
    unfold midNodes at he
    rw [List.mem_map] at he
    obtain ⟨j0, hj0, hj0e⟩ := he
    have hech2 : childrenOfM (r :: tl) j0.name ≠ [] := by
      rw [← hj0e] at hech
      exact hech
    have hname : j0.name = s := by
      rw [← hename, ← hj0e]
    have hchild : hasChildM (r :: tl) j0.name = true :=
      (childrenOfM_ne_nil (r :: tl) j0.name).mp hech2
    have hj0end : j0.isEnd = false := by
      have := hend j0 hj0
      rw [hchild] at this
      simpa using this
    obtain ⟨hin, hne⟩ := hrots j0 hj0 hj0end
    obtain ⟨ch, hch⟩ := List.exists_mem_of_ne_nil _ hne
    refine ⟨j0.name ++ "." ++ firstLower ch, ?_, ?_, ?_⟩
    · unfold rotHeader
      apply List.mem_cons_of_mem
      rw [List.mem_flatMap]
      exact ⟨j0, List.mem_filter.mpr ⟨hj0, by simp [hj0end]⟩,
        List.mem_map_of_mem _ hch⟩
    · intro hcon
      have hcol : colJoint (j0.name ++ "." ++ firstLower ch) = j0.name :=
        colJoint_dotted j0.name (firstLower ch) (hgood j0 hj0).2.2.2
      rw [hcon] at hcol
      exact (hgood j0 hj0).2.1 (by rw [← hcol]; rfl)
    · rw [colJoint_dotted j0.name (firstLower ch) (hgood j0 hj0).2.2.2, hname]

theorem coverage_check_ok (nodes : Nodes) (rotCols : List String)
    (h : df_to_joints rotCols = nonLeafSorted nodes) :
    rotationCoverageCheck nodes rotCols = .ok () := by
  unfold rotationCoverageCheck
  rw [if_neg (by simpa using h)]

/-- The rotation channels of the (unique) joint named `s`. -/
def rotsOfName (m : List MJoint) (s : String) : List String :=
  match m.find? (fun j => j.name = s) with
  | some j => rotChannelsOf j
  | none => []

theorem rotsOfName_eq (m : List MJoint) (hnd : (m.map (fun j => j.name)).Nodup)
    (j0 : MJoint) (hj0 : j0 ∈ m) : rotsOfName m j0.name = rotChannelsOf j0 := by
  unfold rotsOfName
  rw [find?_name m hnd j0 hj0]

/-- Decoding one joint's rotation columns recovers its channel tokens. -/
theorem mapM_axis_block (nm : String) (hnm : '.' ∉ nm.data) (chans : List String)
    (h : ∀ ch ∈ chans, ch ∈ rotSet) :
    ((chans.map (fun ch => nm ++ "." ++ firstLower ch)).mapM
        (fun c => (colAxis c).map (fun a => pyUpper a ++ "rotation"))) = some chans := by
  induction chans with
  | nil => rfl
  | cons ch rest ih =>
      rw [List.map_cons, List.mapM_cons]
      rw [colAxis_dotted nm (firstLower ch) hnm (firstLower_rot_nodot (h ch (by simp)))]
      rw [ih (fun c hc => h c (by simp [hc]))]
      show some ((pyUpper (firstLower ch) ++ "rotation") :: rest) = some (ch :: rest)
      rw [upper_firstLower_rot (h ch (by simp))]

/-- Filtering the rotation columns for one joint's name isolates that
joint's block. -/
theorem dof_filter_block (r : MJoint) (tl : List MJoint)
    (hnd : ((r :: tl).map (fun j => j.name)).Nodup)
    (hgood : ∀ j ∈ r :: tl, goodName j.name)
    (j0 : MJoint) (hj0 : j0 ∈ r :: tl) (hj0end : j0.isEnd = false) :
    (((r :: tl).filter (fun j => ! j.isEnd)).flatMap
        (fun j => (rotChannelsOf j).map (fun ch => j.name ++ "." ++ firstLower ch))).filter
      (fun c => colJoint c = j0.name) =
      (rotChannelsOf j0).map (fun ch => j0.name ++ "." ++ firstLower ch) := by
  have hndf : (((r :: tl).filter (fun j => ! j.isEnd)).map (fun j => j.name)).Nodup :=
    hnd.sublist ((List.filter_sublist (r :: tl) (p := fun j => ! j.isEnd)).map
      (fun j => j.name))
  rw [List.filter_flatMap]
  rw [flatMap_congr_mem _ _
    (fun j => if j.name = j0.name
      then (rotChannelsOf j).map (fun ch => j.name ++ "." ++ firstLower ch) else [])
    ?hpt]
  · rw [flatMap_single _ hndf j0 (List.mem_filter.mpr ⟨hj0, by simp [hj0end]⟩) _]
  case hpt =>
    intro j hj
    have hjm := List.mem_of_mem_filter hj
    have hdot := (hgood j hjm).2.2.2
    show List.filter (fun c => decide (colJoint c = j0.name))
        ((rotChannelsOf j).map (fun ch => j.name ++ "." ++ firstLower ch)) =
      if j.name = j0.name
        then (rotChannelsOf j).map (fun ch => j.name ++ "." ++ firstLower ch) else []
    by_cases hjr : j.name = j0.name
    · rw [if_pos hjr]
      apply List.filter_eq_self.mpr
      intro c hc
      rw [List.mem_map] at hc
      obtain ⟨ch, _, hceq⟩ := hc
      rw [← hceq]
      simp only [decide_eq_true_eq]
      rw [colJoint_dotted j.name (firstLower ch) hdot]
      exact hjr
    · rw [if_neg hjr]
      apply List.filter_eq_nil_iff.mpr
      intro c hc
      rw [List.mem_map] at hc
      obtain ⟨ch, _, hceq⟩ := hc
      rw [← hceq]
      simp only [decide_eq_true_eq]
      rw [colJoint_dotted j.name (firstLower ch) hdot]
      exact hjr

/-- `_df_to_channels` on the exported rotation header returns each
covered joint's channel tokens. -/
theorem df_to_channels_eq (r : MJoint) (tl : List MJoint)
    (hnd : ((r :: tl).map (fun j => j.name)).Nodup)
    (hgood : ∀ j ∈ r :: tl, goodName j.name)
    (hrots : ∀ j ∈ r :: tl, j.isEnd = false →
      (∀ ch ∈ rotChannelsOf j, ch ∈ rotSet) ∧ rotChannelsOf j ≠ []) :
    _df_to_channels (rotHeader (r :: tl)) =
      .ok ((df_to_joints (rotHeader (r :: tl))).map
        (fun s => (s, rotsOfName (r :: tl) s))) := by
  unfold _df_to_channels
  apply mapM_ok_of_each
  intro s hs
  have hcov := (mem_df_to_joints (rotHeader (r :: tl)) s).mp hs
  obtain ⟨j0, hj0, hj0end, hj0name⟩ :=
    covers_elim r tl hgood (fun j hj he => (hrots j hj he).1) s hcov
  subst hj0name
  have herase : (rotHeader (r :: tl)).erase "time" =
      ((r :: tl).filter (fun j => ! j.isEnd)).flatMap
        (fun j => (rotChannelsOf j).map (fun ch => j.name ++ "." ++ firstLower ch)) := by
    unfold rotHeader
    exact List.erase_cons_head _ _
  rw [herase, dof_filter_block r tl hnd hgood j0 hj0 hj0end,
    mapM_axis_block j0.name (hgood j0 hj0).2.2.2 (rotChannelsOf j0) (hrots j0 hj0 hj0end).1,
    rotsOfName_eq (r :: tl) hnd j0 hj0]

/-- `_update_channels` restores every joint's original channel list. -/
theorem update_channels_final (r : MJoint) (tl : List MJoint)
    (hnd : ((r :: tl).map (fun j => j.name)).Nodup)
    (hgood : ∀ j ∈ r :: tl, goodName j.name)
    (hr : r.parent = "") (hre : r.isEnd = false)
    (hpe : parentsEarlier [r.name] tl = true)
    (hend : ∀ j ∈ r :: tl, j.isEnd = ! hasChildM (r :: tl) j.name)
    (hch1 : r.channels.take 3 = ["Xposition", "Yposition", "Zposition"])
    (hch2 : rotsOnly (r.channels.drop 3))
    (hch3 : ∀ j ∈ tl, (j.isEnd = true → j.channels = []) ∧
      (j.isEnd = false → rotsOnly j.channels)) :
    _update_channels (midNodes (r :: tl)) ["Xposition", "Yposition", "Zposition"]
      ((df_to_joints (rotHeader (r :: tl))).map (fun s => (s, rotsOfName (r :: tl) s))) =
      expectedNodes (r :: tl) := by
  have hrots := channels_rotSet r tl hch1 hch2 hch3
  have hcov := coverage_holds r tl hnd hgood hend hrots
  unfold _update_channels midNodes expectedNodes
  rw [List.map_map]
  apply List.map_congr_left
  intro j hj
  show (if childrenOfM (r :: tl) j.name = [] then
      (j.name, (⟨j.parent, V3.round5 j.offset, childrenOfM (r :: tl) j.name, []⟩ : NodeProps))
    else if j.parent = "" then
      (j.name, (⟨j.parent, V3.round5 j.offset, childrenOfM (r :: tl) j.name,
        ["Xposition", "Yposition", "Zposition"] ++
          (((df_to_joints (rotHeader (r :: tl))).map
            (fun s => (s, rotsOfName (r :: tl) s))).lookup j.name).getD []⟩ : NodeProps))
    else (j.name, (⟨j.parent, V3.round5 j.offset, childrenOfM (r :: tl) j.name,
        (((df_to_joints (rotHeader (r :: tl))).map
          (fun s => (s, rotsOfName (r :: tl) s))).lookup j.name).getD []⟩ : NodeProps))) =
    (j.name, (⟨j.parent, V3.round5 j.offset, childrenOfM (r :: tl) j.name,
      j.channels⟩ : NodeProps))
  by_cases hleaf : childrenOfM (r :: tl) j.name = []
  · rw [if_pos hleaf]
    have hchild : hasChildM (r :: tl) j.name = false := by
      cases hcm : hasChildM (r :: tl) j.name
      · rfl
      · exact absurd ((childrenOfM_ne_nil (r :: tl) j.name).mpr hcm) (by simpa using hleaf)
    have hjend : j.isEnd = true := by
      have := hend j hj
      rw [hchild] at this
      simpa using this
    have hjch : j.channels = [] := by
      rcases List.mem_cons.mp hj with h | h
      · rw [h] at hjend
        exact absurd hjend (by rw [hre]; simp)
      · exact (hch3 j h).1 hjend
    rw [hjch]
  · rw [if_neg hleaf]
    have hchild : hasChildM (r :: tl) j.name = true :=
      (childrenOfM_ne_nil (r :: tl) j.name).mp hleaf
    have hjend : j.isEnd = false := by
      have := hend j hj
      rw [hchild] at this
      simpa using this
    have hmemdf : j.name ∈ df_to_joints (rotHeader (r :: tl)) := by
      rw [mem_df_to_joints]
      apply (hcov j.name).mpr
      exact ⟨(j.name, (⟨j.parent, V3.round5 j.offset, childrenOfM (r :: tl) j.name,
        []⟩ : NodeProps)), by unfold midNodes; exact List.mem_map_of_mem _ hj, hleaf, rfl⟩
    have hlook := lookup_map_pair (df_to_joints (rotHeader (r :: tl)))
      (fun s => rotsOfName (r :: tl) s) j.name hmemdf
    rcases List.mem_cons.mp hj with h | h
    · subst h
      rw [if_pos hr, hlook]
      show (j.name, (⟨j.parent, V3.round5 j.offset, childrenOfM (j :: tl) j.name,
        ["Xposition", "Yposition", "Zposition"] ++ rotsOfName (j :: tl) j.name⟩ : NodeProps)) = _
      rw [rotsOfName_eq (j :: tl) hnd j (by simp), rotChannelsOf_root j hch1 hch2.2,
        ← hch1, List.take_append_drop]
    · have hjpar : j.parent ≠ "" := tl_parent_ne r tl hpe hgood j h
      rw [if_neg hjpar, hlook]
      show (j.name, (⟨j.parent, V3.round5 j.offset, childrenOfM (r :: tl) j.name,
        rotsOfName (r :: tl) j.name⟩ : NodeProps)) = _
      rw [rotsOfName_eq (r :: tl) hnd j hj,
        rotChannelsOf_plain j ((hch3 j h).2 hjend).2]

theorem get_root_name_mid (r : MJoint) (tl : List MJoint) (hr : r.parent = "") :
    get_root_name (midNodes (r :: tl)) = some r.name := by
  unfold get_root_name midNodes
  rw [List.map_cons, List.find?_cons_of_pos _ (by simpa using hr)]
  rfl

/-- `get_hierarchy_data` on the exported hierarchy table rebuilds the
joint dictionary: names, parents, rounded offsets and children. -/
theorem get_hierarchy_data_roundtrip (r : MJoint) (tl : List MJoint)
    (hnd : ((r :: tl).map (fun j => j.name)).Nodup)
    (hgood : ∀ j ∈ r :: tl, goodName j.name)
    (hr : r.parent = "")
    (hpe : parentsEarlier [r.name] tl = true) :
    get_hierarchy_data (write_joint_hierarchy (r :: tl) 1) 1 = .ok (midNodes (r :: tl)) := by
  apply get_hierarchy_data_eq
  · rw [base_rows_eq r tl hgood hr hpe]
    rw [dictOfRows_nodup _ ?keys]
    · exact update_children_mid r tl hgood hr hpe
    case keys =>
      rw [List.map_map]
      exact hnd
  · exact midNodes_sanity r tl hnd hpe hgood hr

/-- The general form of `_get_frame_time` on two or more samples (the
denominator is positive, so the division is the ordinary one). -/
theorem frame_time_div (ts : List ℚ) (h : 2 ≤ ts.length) :
    _get_frame_time ts = .ok (some (ts.getLastD 0 / ((ts.length - 1 : ℕ) : ℚ))) := by
  match ts with
  | [] => simp at h
  | t :: rest =>
      have hn : ¬ ((t :: rest).length - 1 = 0) := by
        simp only [List.length_cons] at h ⊢
        omega
      simp only [_get_frame_time]
      rw [if_neg hn]

theorem rotRows_length (n : Nat) (ft : ℚ) (vals : Nat → List ℚ) :
    (rotRows n ft vals).length = n := by
  unfold rotRows
  rw [List.length_map, List.length_range]

/-- The `time` column of the exported rotation table. -/
theorem rotRows_time_col (n : Nat) (ft : ℚ) (vals : Nat → List ℚ) :
    (rotRows n ft vals).map (fun row => row.getD 0 0) =
      (List.range n).map (fun k : Nat => round5 ((k : ℚ) * ft)) := by
  unfold rotRows
  rw [List.map_map]
  apply List.map_congr_left
  intro k _
  rfl

/-- `_get_frame_time` on the exported time column recovers the rounded
time of the last frame divided by the frame count less one. -/
theorem frame_time_export (n : Nat) (ft : ℚ) (hn : 2 ≤ n) :
    _get_frame_time ((List.range n).map (fun k : Nat => round5 ((k : ℚ) * ft))) =
      .ok (some (round5 (((n - 1 : ℕ) : ℚ) * ft) / ((n - 1 : ℕ) : ℚ))) := by
  have hsplit : List.range n = List.range (n - 1) ++ [n - 1] := by
    conv_lhs => rw [show n = (n - 1) + 1 by omega]
    exact List.range_succ (n - 1)
  have hlast : ((List.range n).map (fun k : Nat => round5 ((k : ℚ) * ft))).getLastD 0 =
      round5 (((n - 1 : ℕ) : ℚ) * ft) := by
    rw [hsplit, List.map_append]
    exact List.getLastD_concat _ _ _
  have hlen : ((List.range n).map (fun k : Nat => round5 ((k : ℚ) * ft))).length = n := by
    rw [List.length_map, List.length_range]
  rw [frame_time_div _ (by rw [hlen]; exact hn), hlast, hlen]

theorem indexOf_time_rotHeader (m : List MJoint) :
    List.indexOf "time" (rotHeader m) = 0 := by
  unfold rotHeader
  exact List.indexOf_cons_self _ _

/-- The exported rotation header covers exactly the non-leaf joints of
the rebuilt dictionary: the sorted lists coincide. -/
theorem coverage_eq (r : MJoint) (tl : List MJoint)
    (hnd : ((r :: tl).map (fun j => j.name)).Nodup)
    (hgood : ∀ j ∈ r :: tl, goodName j.name)
    (hend : ∀ j ∈ r :: tl, j.isEnd = ! hasChildM (r :: tl) j.name)
    (hrots : ∀ j ∈ r :: tl, j.isEnd = false →
      (∀ ch ∈ rotChannelsOf j, ch ∈ rotSet) ∧ rotChannelsOf j ≠ []) :
    df_to_joints (rotHeader (r :: tl)) = nonLeafSorted (midNodes (r :: tl)) := by
  have hiff := coverage_holds r tl hnd hgood hend hrots
  have hkeysnd : ((midNodes (r :: tl)).map (fun e => e.1)).Nodup := by
    rw [midNodes_keys]
    exact hnd
  unfold df_to_joints nonLeafSorted
  apply (pySorted_eq_iff (List.nodup_dedup _) (nonLeafSorted_base_nodup _ hkeysnd)).mpr
  intro s
  have h1 : s ∈ (((rotHeader (r :: tl)).filter (fun x => x ≠ "time")).map colJoint).dedup ↔
      colCovers (rotHeader (r :: tl)) s := by
    rw [← mem_df_to_joints]
    unfold df_to_joints
    rw [mem_pySorted]
  have h2 : s ∈ ((midNodes (r :: tl)).filter (fun e => e.2.children ≠ [])).map (fun e => e.1) ↔
      hasChildJoint (midNodes (r :: tl)) s := by
    rw [← mem_nonLeafSorted]
    unfold nonLeafSorted
    rw [mem_pySorted]
  rw [h1, h2]
  exact hiff s

/-- C5 (amended): exporting a valid flattened hierarchy together with
motion tables at unit scale — the hierarchy table from
`write_joint_hierarchy`, the rotation table from
`write_joint_rotations`, and the position table (its `headerOf` header
and its `posRows` data rows) from `write_joint_positions`' recursive
traversal of the same hierarchy's tree — and decoding the three tables
with `csv2bvh_string`'s pipeline reproduces the joint dictionary: the
same names in the same order, the same parents, the offsets at the
tables' 5-decimal precision, the children in traversal order and the
original channel lists, together with the original frame count and the
frame time rounded to the same precision.  Valid means: the single
root (empty parent, position-then-rotation channels) comes first,
parents precede children, names are distinct, nonempty, dot-free, at
most 20 characters and not `time`, End Sites are exactly the childless
nodes and carry no channels, and other joints carry nonempty
rotation-only channel lists; at least two frames are present; the
position exporter (at any scale and `end_sites` setting) visits the
hierarchy's root first and otherwise only the hierarchy's joints. -/
theorem csv_round_trip (r : MJoint) (tl : List MJoint) (n : Nat) (ft : ℚ)
    (T : JTree) (pscale : ℚ) (endSites : Bool) (vals : Nat → List ℚ) (scale : ℚ)
    (hv : ValidModel r tl) (hn : 2 ≤ n)
    (hhead : ((posExportRec pscale n endSites T).map (fun e => e.1)).head? = some r.name)
    (htail : ∀ nm ∈ ((posExportRec pscale n endSites T).map (fun e => e.1)).tail,
      nm ∈ tl.map (fun j => j.name)) :
    csv2bvhImport (write_joint_hierarchy (r :: tl) 1)
        (headerOf (posExportRec pscale n endSites T))
        (posRows (posExportRec pscale n endSites T) n ft)
        (rotHeader (r :: tl)) (rotRows n ft vals) scale =
      .ok ⟨expectedNodes (r :: tl), n,
        some (round5 (((n - 1 : ℕ) : ℚ) * ft) / ((n - 1 : ℕ) : ℚ))⟩ := by
  obtain ⟨hr, hre, hnd, hgood, hpe, hend, hch1, hch2, hch3⟩ := hv
  have hrots := channels_rotSet r tl hch1 hch2 hch3
  have hhier := get_hierarchy_data_roundtrip r tl hnd hgood hr hpe
  have hroot := get_root_name_mid r tl hr
  have hposdf := rootPosDf_header r tl hnd hgood
    (posExportRec pscale n endSites T) hhead htail
  have hposch := rootPosChannels_eq r (hgood r (by simp)).2.2.2
  have hcov := coverage_eq r tl hnd hgood hend hrots
  have hchk := coverage_check_ok (midNodes (r :: tl)) (rotHeader (r :: tl)) hcov
  have hdfch := df_to_channels_eq r tl hnd hgood hrots
  have hupd := update_channels_final r tl hnd hgood hr hre hpe hend hch1 hch2 hch3
  have hidx := indexOf_time_rotHeader (r :: tl)
  have htcol := rotRows_time_col n ft vals
  have hft := frame_time_export n ft hn
  have hlen := rotRows_length n ft vals
  have hplen : (posRows (posExportRec pscale n endSites T) n ft).length = n := by
    unfold posRows
    rw [List.length_map, List.length_range]
  simp only [csv2bvhImport, hhier, except_bind_ok, hroot, hposdf, hposch, hlen, hplen,
    ne_eq, not_true_eq_false, reduceIte, List.cons_ne_nil, not_false_eq_true,
    hchk, hdfch, hupd, hidx, htcol, hft]
  simp only [except_pure_bind, hupd]
  rfl

/-- A three-node valid hierarchy: root `Hips` with child `Spine`,
which owns an End Site. -/
def rEx5 : MJoint :=
  ⟨"Hips", "", false, ⟨0, 0, 0⟩,
    ["Xposition", "Yposition", "Zposition", "Zrotation", "Xrotation", "Yrotation"]⟩

def tlEx5 : List MJoint :=
  [⟨"Spine", "Hips", false, ⟨0, 1, 0⟩, ["Zrotation", "Xrotation", "Yrotation"]⟩,
   ⟨"SpineEnd", "Spine", true, ⟨0, 1, 0⟩, []⟩]

/-- The BVH tree whose `get_joints(end_sites=True)` flattening is
`rEx5 :: tlEx5`: Hips → Spine → SpineEnd. -/
def tEx5End : JTree := .mk "SpineEnd" true ⟨0, 1, 0⟩ [] [] []

def tEx5Spine : JTree :=
  .mk "Spine" false ⟨0, 1, 0⟩ [M3.id, M3.id] [⟨0, 0, 0⟩, ⟨0, 0, 0⟩] [tEx5End]

def tEx5Root : JTree :=
  .mk "Hips" false ⟨0, 0, 0⟩ [M3.id, M3.id] [⟨0, 0, 0⟩, ⟨0, 0, 0⟩] [tEx5Spine]

/-- Witness for C5 on the concrete three-node hierarchy with two
frames at 0.1-second spacing, the position table written by the
recursive exporter with `end_sites=True`. -/
theorem csv_round_trip_witness :
    ValidModel rEx5 tlEx5 ∧ 2 ≤ 2 ∧
    ((posExportRec 1 2 true tEx5Root).map (fun e => e.1)).head? = some rEx5.name ∧
    (∀ nm ∈ ((posExportRec 1 2 true tEx5Root).map (fun e => e.1)).tail,
      nm ∈ tlEx5.map (fun j => j.name)) ∧
    csv2bvhImport (write_joint_hierarchy (rEx5 :: tlEx5) 1)
        (headerOf (posExportRec 1 2 true tEx5Root))
        (posRows (posExportRec 1 2 true tEx5Root) 2 (1 / 10))
        (rotHeader (rEx5 :: tlEx5)) (rotRows 2 (1 / 10) (fun _ => [])) 1 =
      .ok ⟨expectedNodes (rEx5 :: tlEx5), 2,
        some (round5 (((2 - 1 : ℕ) : ℚ) * (1 / 10)) / ((2 - 1 : ℕ) : ℚ))⟩ := by
  have hmap : (posExportRec 1 2 true tEx5Root).map (fun e => e.1) =
      ["Hips", "Spine", "SpineEnd"] := by
    simp [posExportRec, goRec, goRecEnd, goRecJoints, tEx5Root, tEx5Spine, tEx5End,
      visitEntry, JTree.children, JTree.isEnd, JTree.name]
  refine ⟨by decide, by decide, ?_, ?_, ?_⟩
  · rw [hmap]
    rfl
  · rw [hmap]
    decide
  · exact csv_round_trip rEx5 tlEx5 2 (1 / 10) tEx5Root 1 true (fun _ => []) 1
      (by decide) (by decide) (by rw [hmap]; rfl) (by rw [hmap]; decide)

/-- The same hierarchy with the middle joint renamed to 24 characters:
longer than the 20-character name fields of the hierarchy table. -/
def mExLong : List MJoint :=
  [⟨"Hips", "", false, ⟨0, 0, 0⟩,
    ["Xposition", "Yposition", "Zposition", "Zrotation", "Xrotation", "Yrotation"]⟩,
   ⟨"SpineWithAVeryLongName01", "Hips", false, ⟨0, 1, 0⟩,
    ["Zrotation", "Xrotation", "Yrotation"]⟩,
   ⟨"SpineEnd2", "SpineWithAVeryLongName01", true, ⟨0, 1, 0⟩, []⟩]

/-- The tree behind `mExLong`, as the position exporter walks it. -/
def tExLongEnd : JTree := .mk "SpineEnd2" true ⟨0, 1, 0⟩ [] [] []

def tExLongSpine : JTree :=
  .mk "SpineWithAVeryLongName01" false ⟨0, 1, 0⟩ [M3.id, M3.id]
    [⟨0, 0, 0⟩, ⟨0, 0, 0⟩] [tExLongEnd]

def tExLongRoot : JTree :=
  .mk "Hips" false ⟨0, 0, 0⟩ [M3.id, M3.id] [⟨0, 0, 0⟩, ⟨0, 0, 0⟩] [tExLongSpine]

/-- C5 counterexample: with a 24-character joint name the hierarchy
table stores a truncated name while the rotation table keeps the full
column prefix, so re-importing the exported tables fails (the coverage
check sees different joint sets) instead of reproducing the tree — the
round trip as claimed, for every valid hierarchy, is false. -/
theorem csv_round_trip_truncation_counterexample :
    ("SpineWithAVeryLongName01" : String).data.length = 24 ∧
    (write_joint_hierarchy mExLong 1).map (fun row => row.joint) ≠
      mExLong.map (fun j => j.name) ∧
    isErr (csv2bvhImport (write_joint_hierarchy mExLong 1)
      (headerOf (posExportRec 1 2 true tExLongRoot))
      (posRows (posExportRec 1 2 true tExLongRoot) 2 1)
      (rotHeader mExLong) (rotRows 2 1 (fun _ => [])) 1) = true := by
  have hhdr : headerOf (posExportRec 1 2 true tExLongRoot) =
      ["time", "Hips.x", "Hips.y", "Hips.z",
       "SpineWithAVeryLongName01.x", "SpineWithAVeryLongName01.y",
       "SpineWithAVeryLongName01.z", "SpineEnd2.x", "SpineEnd2.y", "SpineEnd2.z"] := by
    simp [headerOf, posExportRec, goRec, goRecEnd, goRecJoints, tExLongRoot, tExLongSpine,
      tExLongEnd, visitEntry, JTree.children, JTree.isEnd, JTree.name]
  refine ⟨by decide, by decide, ?_⟩
  rw [hhdr]
  decide

end BvhToolbox

